import Mathlib

/-!
Verification of the CheckboxTree state-reconciliation engine.

This development embeds the tree-state reconciliation engine of the
CheckboxTree component: the stateful-tree builder (`createStatefulTree`),
the visibility resolver (`createIsLeafVisible`), the reconciliation pass
(`applyPropsToStatefulTree`), and the debounced recomputation controller
(the effect inside `useTreeState`).

Modelling choices:

* Caller trees are accessed in the source only through two pure accessors,
  `getNodeId : T -> string` and `getNodeChildren : T -> T[]`.  The shallow
  embedding replaces the opaque caller type `T` plus accessors by the
  inductive type `RawTree` whose constructor carries exactly the id and the
  ordered children list; `isLeaf node getNodeChildren` (children empty)
  becomes emptiness of that list.
* A `StatefulNode<T>` carries the node state and the reconciled children
  (`__expandableTreeState` / `__expandableTreeChildren`); it becomes the
  inductive `STree`.  The two per-branch fields `isIndeterminate` and
  `isExpanded` are absent (`undefined`) on leaves, hence `Option Bool`,
  with JavaScript truthiness of a possibly-undefined field modelled as
  `Option.getD false`.
* JavaScript reference identity: `applyPropsToStatefulTree`'s map function
  returns the input node object itself when `modifyThisNode` is false and a
  freshly allocated object otherwise, so a node of the output is the same
  reference as the input node exactly when its `modifyThisNode` flag was
  false.  The embedding `applyGo` returns that flag next to the value, and
  `applyGo_modified_iff` below proves the flag coincides with value
  disagreement, so reference-identity claims are stated through the flag.
* A JavaScript `Set` built from a list and read back with `Array.from`
  keeps the first occurrence of each element in insertion order; `jsSetFrom`
  models exactly that.
* The timers of the debounced controller are modelled as a step function on
  an explicit controller state, with a props-change event running the
  effect (cleanup clears the pending timeout, then either an immediate
  update or a newly scheduled one) and a timer-fire event committing the
  pending recomputation.
-/

/-- Per-node state stored under `__expandableTreeState`: `isSelected` and
`isVisible` on every node, `isIndeterminate` and `isExpanded` present only on
branches (`none` models the absent/undefined field on leaves). -/
structure NodeState where
  isSelected : Bool
  isVisible : Bool
  isIndeterminate : Option Bool
  isExpanded : Option Bool
deriving DecidableEq, Repr

/-- A raw caller tree node: the value of `getNodeId` together with the ordered
`getNodeChildren` list (empty list means leaf). -/
inductive RawTree where
  | node (id : String) (children : List RawTree)

/-- A stateful tree node (`StatefulNode<T>`): id, `__expandableTreeState`, and
the reconciled `__expandableTreeChildren`. -/
inductive STree where
  | node (id : String) (state : NodeState) (children : List STree)

namespace RawTree

def id : RawTree → String
  | .node i _ => i

def children : RawTree → List RawTree
  | .node _ cs => cs

/-- Modelled from the spec: the tree utility `isLeaf(node, getNodeChildren)`
(not under src/) is true iff the node's children list is empty. -/
def isLeaf (t : RawTree) : Bool :=
  t.children.isEmpty

end RawTree

namespace STree

def id : STree → String
  | .node i _ _ => i

def state : STree → NodeState
  | .node _ st _ => st

def children : STree → List STree
  | .node _ _ cs => cs

/-- Modelled from the spec: `isLeaf` applied to a stateful node.  The stateful
children mirror the raw children one-to-one (`createStatefulTree` maps the raw
children list elementwise and reconciliation preserves its length), so leaf
classification is emptiness of the stateful children list. -/
def isLeaf (t : STree) : Bool :=
  t.children.isEmpty

end STree

mutual

def streeDecEq : ∀ a b : STree, Decidable (a = b)
  | .node i s cs, .node j u ds =>
    match decEq i j with
    | isFalse h => isFalse (by intro he; cases he; exact h rfl)
    | isTrue h1 =>
      match decEq s u with
      | isFalse h => isFalse (by intro he; cases he; exact h rfl)
      | isTrue h2 =>
        match streeForestDecEq cs ds with
        | isFalse h => isFalse (by intro he; cases he; exact h rfl)
        | isTrue h3 => isTrue (by rw [h1, h2, h3])

def streeForestDecEq : ∀ a b : List STree, Decidable (a = b)
  | [], [] => isTrue rfl
  | [], _ :: _ => isFalse (by intro h; cases h)
  | _ :: _, [] => isFalse (by intro h; cases h)
  | c :: cs, d :: ds =>
    match streeDecEq c d with
    | isFalse h => isFalse (by intro he; cases he; exact h rfl)
    | isTrue h1 =>
      match streeForestDecEq cs ds with
      | isFalse h => isFalse (by intro he; cases he; exact h rfl)
      | isTrue h2 => isTrue (by rw [h1, h2])

end

instance : DecidableEq STree := streeDecEq

mutual

def rawTreeDecEq : ∀ a b : RawTree, Decidable (a = b)
  | .node i cs, .node j ds =>
    match decEq i j with
    | isFalse h => isFalse (by intro he; cases he; exact h rfl)
    | isTrue h1 =>
      match rawForestDecEq cs ds with
      | isFalse h => isFalse (by intro he; cases he; exact h rfl)
      | isTrue h2 => isTrue (by rw [h1, h2])

def rawForestDecEq : ∀ a b : List RawTree, Decidable (a = b)
  | [], [] => isTrue rfl
  | [], _ :: _ => isFalse (by intro h; cases h)
  | _ :: _, [] => isFalse (by intro h; cases h)
  | c :: cs, d :: ds =>
    match rawTreeDecEq c d with
    | isFalse h => isFalse (by intro he; cases he; exact h rfl)
    | isTrue h1 =>
      match rawForestDecEq cs ds with
      | isFalse h => isFalse (by intro he; cases he; exact h rfl)
      | isTrue h2 => isTrue (by rw [h1, h2])

end

instance : DecidableEq RawTree := rawTreeDecEq

/-- Adding one element to a JavaScript `Set` kept as an insertion-ordered
duplicate-free list: a no-op when present, appended otherwise. -/
def jsSetAdd (s : List String) (x : String) : List String :=
  if s.contains x then s else s ++ [x]

/-- `new Set(list)` read back with `Array.from`: inserts the elements of the
list in order, keeping the first occurrence of each. -/
def jsSetFrom (l : List String) : List String :=
  l.foldl jsSetAdd []

/-- Duplicate removal keeping the first occurrence of each element in order,
written in the direct recursive way; `jsSetFrom_eq_dedupFirst` identifies it
with the `Set` insertion model. -/
def dedupFirst : List String → List String
  | [] => []
  | x :: xs => x :: dedupFirst (xs.filter (fun y => !(y == x)))
termination_by l => l.length
decreasing_by
  exact Nat.lt_succ_of_le (List.length_filter_le _ _)

/-- Modelled from the spec: the search-string tokenizer
`parseSearchQueryString` (not under src/) splits the term on whitespace,
drops empty tokens, and normalizes case; the tokens are only handed to the
caller-supplied predicate. -/
def parseSearchQueryString (s : String) : List String :=
  ((s.split Char.isWhitespace).filter (fun t => !(t == ""))).map (fun t => t.toLower)

/-- Modelled from the spec: the ordered-set toggle `addOrRemove` (not under
src/) removes the id when present, else appends it, preserving the relative
order of the remaining elements. -/
def addOrRemove (l : List String) (x : String) : List String :=
  if l.contains x then l.filter (fun y => !(y == x)) else l ++ [x]

/-- Translated from `isFiltered` in the source: at least one filter applies —
the search term is non-empty or an additional filter is applied. -/
def isFiltered (searchTerm : String) (isAdditionalFilterApplied : Bool) : Bool :=
  decide (searchTerm.length > 0) || isAdditionalFilterApplied

/-- Translated from `isActiveSearch` in the source: the tree is searchable and
at least one filter applies. -/
def isActiveSearch (isAdditionalFilterApplied : Bool) (isSearchable : Bool)
    (searchTerm : String) : Bool :=
  isSearchable && isFiltered searchTerm isAdditionalFilterApplied

/-- Translated from `getInitialNodeState`: `isSelected: false, isVisible: true`
for every node, plus `isExpanded: false, isIndeterminate: false` only for
branches. -/
def getInitialNodeState (leaf : Bool) : NodeState :=
  if leaf then
    { isSelected := false, isVisible := true, isIndeterminate := none, isExpanded := none }
  else
    { isSelected := false, isVisible := true, isIndeterminate := some false,
      isExpanded := some false }

mutual

/-- Translated from `createStatefulTree`: one-time structure-preserving map of
the raw tree populating each node with its initial state. -/
def createStatefulTree : RawTree → STree
  | .node i cs => .node i (getInitialNodeState cs.isEmpty) (createStatefulForest cs)

def createStatefulForest : List RawTree → List STree
  | [] => []
  | c :: cs => createStatefulTree c :: createStatefulForest cs

end

mutual

/-- Translated from the recursive `addVisibleLeaves` closure inside
`createIsLeafVisible`: walk the tree carrying a `parentMatches` flag; a node
matches if its parent matched, else if the predicate holds of it directly; a
matching leaf is recorded when the `filteredList` is unset or contains its id
(the set built from the provided list). -/
def addVisibleLeaves (pred : RawTree → Bool) (filteredList : Option (List String)) :
    RawTree → Bool → List String
  | .node i cs, parentMatches =>
    let nodeMatches := if parentMatches then parentMatches else pred (.node i cs)
    if cs.isEmpty then
      if nodeMatches then
        match filteredList with
        | none => [i]
        | some l => if (jsSetFrom l).contains i then [i] else []
      else []
    else addVisibleLeavesForest pred filteredList cs nodeMatches

def addVisibleLeavesForest (pred : RawTree → Bool) (filteredList : Option (List String)) :
    List RawTree → Bool → List String
  | [], _ => []
  | c :: cs, m =>
    addVisibleLeaves pred filteredList c m ++ addVisibleLeavesForest pred filteredList cs m

end

/-- Translated from `createIsLeafVisible`: if no search is active and the
filtered list is unset, every leaf id is visible without walking the tree;
otherwise the set of visible leaves is computed by `addVisibleLeaves` and the
result is a membership test on it. -/
def createIsLeafVisible (tree : RawTree) (searchTerm : String)
    (searchPredicate : RawTree → List String → Bool)
    (isAdditionalFilterApplied : Bool) (isSearchable : Bool)
    (filteredList : Option (List String)) : String → Bool :=
  if !(isActiveSearch isAdditionalFilterApplied isSearchable searchTerm)
      && filteredList.isNone then
    fun _ => true
  else
    let searchTerms := parseSearchQueryString searchTerm
    let visibleLeaves :=
      addVisibleLeaves (fun n => searchPredicate n searchTerms) filteredList tree false
    fun nodeId => visibleLeaves.contains nodeId

/-- Aggregate over already-reconciled children: some child is selected. -/
def anySelectedChild (cs : List STree) : Bool :=
  cs.any fun c => c.state.isSelected

/-- Aggregate over already-reconciled children: some child is unselected. -/
def anyUnselectedChild (cs : List STree) : Bool :=
  cs.any fun c => !c.state.isSelected

/-- Aggregate over already-reconciled children: some child has a truthy
`isIndeterminate` field (leaves have it undefined, hence falsy). -/
def anyIndeterminateChild (cs : List STree) : Bool :=
  cs.any fun c => c.state.isIndeterminate.getD false

/-- Aggregate over already-reconciled children: some child is visible. -/
def anyVisibleChild (cs : List STree) : Bool :=
  cs.any fun c => c.state.isVisible

/-- The inputs of the bottom-up pass of `applyPropsToStatefulTree` after the
top-of-function normalizations: mode flags, whether an explicit expansion list
was provided, the selected and expanded id sets, and the leaf-visibility
test. -/
structure GoParams where
  isSelectable : Bool
  isMultiPick : Bool
  searchActive : Bool
  expansionListProvided : Bool
  selectedSet : List String
  expandedSet : List String
  isLeafVisible : String → Bool

/-- The `newIsSelected` value the map function computes for a leaf:
`isSelectable && selectedSet.has(nodeId)`. -/
def leafIsSelected (p : GoParams) (i : String) : Bool :=
  p.isSelectable && p.selectedSet.contains i

/-- The `newIsSelected` value the map function computes for a branch from the
child aggregates: no indeterminate child and no unselected child. -/
def branchIsSelected (cs : List STree) : Bool :=
  !anyIndeterminateChild cs && !anyUnselectedChild cs

/-- The `newIsIndeterminate` value the map function computes for a branch:
not fully selected, and some child selected or indeterminate. -/
def branchIsIndeterminate (cs : List STree) : Bool :=
  !branchIsSelected cs && (anyIndeterminateChild cs || anySelectedChild cs)

/-- The `newIsExpanded` value the map function computes for a branch: forced
open by an active search when visible, else membership in the provided
expansion set (explicit mode) or the auto-expansion rule. -/
def branchIsExpanded (p : GoParams) (i : String) (cs : List STree) : Bool :=
  (p.searchActive && anyVisibleChild cs) ||
  (if p.expansionListProvided then p.expandedSet.contains i
   else anyIndeterminateChild cs ||
     (anySelectedChild cs && (!p.isMultiPick || anyUnselectedChild cs)))

/-- The `modifyThisNode` test for a leaf: the recomputed selection or
visibility differs from the stored one. -/
def leafModify (p : GoParams) (i : String) (st : NodeState) : Bool :=
  leafIsSelected p i != st.isSelected || p.isLeafVisible i != st.isVisible

/-- The fresh state object built for a modified leaf (a copy of the old state
with the two recomputed fields assigned). -/
def leafNewState (p : GoParams) (i : String) (st : NodeState) : NodeState :=
  { st with isSelected := leafIsSelected p i, isVisible := p.isLeafVisible i }

/-- The own-field part of the `modifyThisNode` test for a branch: one of the
four recomputed values differs from the stored one (a stored branch field that
is still undefined also counts as different). -/
def branchModifyOwn (p : GoParams) (i : String) (st : NodeState)
    (mapped : List STree) : Bool :=
  branchIsSelected mapped != st.isSelected ||
  (some (branchIsIndeterminate mapped)) != st.isIndeterminate ||
  (some (branchIsExpanded p i mapped)) != st.isExpanded ||
  anyVisibleChild mapped != st.isVisible

/-- The fresh state object built for a modified branch. -/
def branchNewState (p : GoParams) (i : String) (st : NodeState)
    (mapped : List STree) : NodeState :=
  { st with
    isSelected := branchIsSelected mapped
    isVisible := anyVisibleChild mapped
    isIndeterminate := some (branchIsIndeterminate mapped)
    isExpanded := some (branchIsExpanded p i mapped) }

/-- The contribution of one branch to the generated-expansion accumulator: in
auto mode its id is added exactly when the recomputed expansion flag is
true. -/
def branchOwnGen (p : GoParams) (i : String) (mapped : List STree) : List String :=
  if !p.expansionListProvided && branchIsExpanded p i mapped then [i] else []

mutual

/-- Translated from the `mapFunction` closure of `applyPropsToStatefulTree`
combined with the post-order `mapStructure` traversal (children first, then
the node).  Besides the resulting node the function returns the
`modifyThisNode` flag (false exactly when the original node object is
returned unchanged) and the ids added to the generated-expansion accumulator
while processing this subtree, in insertion order.  The named helper
definitions above are the `let` bindings of the source closure
(`newIsSelected`, `newIsIndeterminate`, `newIsExpanded`, `newState`, the
dirty test, and the accumulator update). -/
def applyGo (p : GoParams) : STree → STree × Bool × List String
  | .node nodeId st cs =>
    if cs.isEmpty then
      if leafModify p nodeId st then
        ⟨.node nodeId (leafNewState p nodeId st) cs, true, []⟩
      else ⟨.node nodeId st cs, false, []⟩
    else
      let rs := applyGoForest p cs
      let mapped := rs.map Prod.fst
      let childGen := (rs.map fun r => r.2.2).flatten
      if (rs.any fun r => r.2.1) || branchModifyOwn p nodeId st mapped then
        ⟨.node nodeId (branchNewState p nodeId st mapped) mapped, true,
          childGen ++ branchOwnGen p nodeId mapped⟩
      else ⟨.node nodeId st cs, false, childGen ++ branchOwnGen p nodeId mapped⟩

def applyGoForest (p : GoParams) : List STree → List (STree × Bool × List String)
  | [] => []
  | c :: cs => applyGo p c :: applyGoForest p cs

end

/-- The condition under which `applyPropsToStatefulTree` emits its
`console.warn` diagnostic: single-pick mode with more than one selected id. -/
def singlePickDiagnosticEmitted (isMultiPick : Bool) (selectedList : List String) : Bool :=
  !isMultiPick && decide (selectedList.length > 1)

/-- The top-of-function normalizations of `applyPropsToStatefulTree`:
single-pick trimming of the selected list, resolution of the effective
expansion list (`propsExpandedList` if non-null, else `stateExpandedList`),
and conversion of both lists to sets. -/
def makeGoParams (isSelectable isSearchable isMultiPick : Bool) (searchTerm : String)
    (selectedList : List String) (propsExpandedList stateExpandedList : Option (List String))
    (isAdditionalFilterApplied : Bool) (isLeafVisible : String → Bool) : GoParams :=
  let selectedListTrimmed :=
    if !isMultiPick && decide (selectedList.length > 1) then selectedList.take 1
    else selectedList
  let expandedListOpt :=
    match propsExpandedList with
    | some l => some l
    | none => stateExpandedList
  { isSelectable := isSelectable
    isMultiPick := isMultiPick
    searchActive := isActiveSearch isAdditionalFilterApplied isSearchable searchTerm
    expansionListProvided := expandedListOpt.isSome
    selectedSet := jsSetFrom selectedListTrimmed
    expandedSet := jsSetFrom (expandedListOpt.getD [])
    isLeafVisible := isLeafVisible }

/-- The result of `applyPropsToStatefulTree`: the resolved expansion list and
the new stateful tree. -/
structure ApplyResult where
  expandedList : List String
  statefulTree : STree
deriving DecidableEq

/-- Translated from `applyPropsToStatefulTree`: normalize the inputs, run the
bottom-up pass, and return the new stateful tree together with the resolved
expansion list (the provided set echoed back, or the generated one). -/
def applyPropsToStatefulTree (root : STree) (isSelectable isSearchable isMultiPick : Bool)
    (searchTerm : String) (selectedList : List String)
    (propsExpandedList : Option (List String)) (isAdditionalFilterApplied : Bool)
    (isLeafVisible : String → Bool) (stateExpandedList : Option (List String)) :
    ApplyResult :=
  let p := makeGoParams isSelectable isSearchable isMultiPick searchTerm selectedList
    propsExpandedList stateExpandedList isAdditionalFilterApplied isLeafVisible
  let r := applyGo p root
  { expandedList := if p.expansionListProvided then p.expandedSet else jsSetFrom r.2.2
    statefulTree := r.1 }

/-- The prop fields the debounced controller's effect depends on (the
dependency lists of `makeTreeState` and of the effect inside `useTreeState`):
the search term plus the remaining reconciliation inputs, abstracted here as
the selected, expanded and filtered lists. -/
structure DebProps where
  searchTerm : String
  selectedList : List String
  expandedList : Option (List String)
  filteredList : Option (List String)
deriving DecidableEq, Repr

/-- The controller state of `useTreeState`: the props from which the committed
tree state was last computed, and the props captured by the pending
`setTimeout` recomputation, if one is live. -/
structure DebState where
  committed : DebProps
  pending : Option DebProps
deriving DecidableEq, Repr

/-- An event the controller reacts to: a change of the effect's dependencies
(with the new props) or the firing of the pending timer. -/
inductive DebEvent where
  | propsChange (p : DebProps)
  | timerFire
deriving DecidableEq, Repr

/-- Translated from the effect inside `useTreeState`: on a dependency change
the cleanup clears any pending timeout and the effect re-runs - when the
current search term is non-empty it schedules `performUpdate` on a fresh
250 ms timer, otherwise it calls `performUpdate` immediately; a timer that
fires commits the recomputation with the props captured at schedule time. -/
def debStep (s : DebState) : DebEvent → DebState
  | .propsChange p =>
    if p.searchTerm.length > 0 then { committed := s.committed, pending := some p }
    else { committed := p, pending := none }
  | .timerFire =>
    match s.pending with
    | some p => { committed := p, pending := none }
    | none => s

/-- Folding a sequence of controller events from a starting state. -/
def debRun (s : DebState) (es : List DebEvent) : DebState :=
  es.foldl debStep s

mutual

/-- The node itself and all of its descendants, in pre-order. -/
def STree.subnodes : STree → List STree
  | .node i st cs => .node i st cs :: STree.subnodesForest cs

def STree.subnodesForest : List STree → List STree
  | [] => []
  | c :: cs => STree.subnodes c ++ STree.subnodesForest cs

end

mutual

/-- All descendant leaves of a node (the node itself when it is a leaf), in
traversal order. -/
def STree.descLeaves : STree → List STree
  | .node i st cs => if cs.isEmpty then [.node i st cs] else STree.descLeavesForest cs

def STree.descLeavesForest : List STree → List STree
  | [] => []
  | c :: cs => STree.descLeaves c ++ STree.descLeavesForest cs

end

mutual

/-- Whether the subtree contains a leaf whose id is `lid`. -/
def containsLeaf (lid : String) : STree → Bool
  | .node i _ cs => if cs.isEmpty then i == lid else containsLeafForest lid cs

def containsLeafForest (lid : String) : List STree → Bool
  | [] => false
  | c :: cs => containsLeaf lid c || containsLeafForest lid cs

end

mutual

/-- The raw node itself and all of its descendants, in pre-order. -/
def RawTree.subnodes : RawTree → List RawTree
  | .node i cs => .node i cs :: RawTree.subnodesForest cs

def RawTree.subnodesForest : List RawTree → List RawTree
  | [] => []
  | c :: cs => RawTree.subnodes c ++ RawTree.subnodesForest cs

end

mutual

/-- The ids of all descendant leaves of a raw node, in traversal order. -/
def RawTree.leafIds : RawTree → List String
  | .node i cs => if cs.isEmpty then [i] else RawTree.leafIdsForest cs

def RawTree.leafIdsForest : List RawTree → List String
  | [] => []
  | c :: cs => RawTree.leafIds c ++ RawTree.leafIdsForest cs

end

mutual

/-- Declarative visibility specification, following the spec's words: a leaf
is search-visible when it or one of its ancestors satisfies the predicate -
equivalently, the matched leaves are all leaves of the topmost subtrees whose
root satisfies the predicate. -/
def matchedLeafIds (pred : RawTree → Bool) : RawTree → List String
  | .node i cs =>
    if pred (.node i cs) then RawTree.leafIds (.node i cs)
    else matchedLeafIdsForest pred cs

def matchedLeafIdsForest (pred : RawTree → Bool) : List RawTree → List String
  | [] => []
  | c :: cs => matchedLeafIds pred c ++ matchedLeafIdsForest pred cs

end

mutual

/-- The reconciled-state invariant: every node's state fields equal the
values the reconciliation pass computes for it from the inputs `p` and its
(already reconciled) children. -/
def reconSpecB (p : GoParams) : STree → Bool
  | .node i st cs =>
    if cs.isEmpty then
      st.isSelected == leafIsSelected p i && st.isVisible == p.isLeafVisible i
    else
      st.isSelected == branchIsSelected cs &&
      st.isIndeterminate == some (branchIsIndeterminate cs) &&
      st.isVisible == anyVisibleChild cs &&
      st.isExpanded == some (branchIsExpanded p i cs) &&
      reconSpecForestB p cs

def reconSpecForestB (p : GoParams) : List STree → Bool
  | [] => true
  | c :: cs => reconSpecB p c && reconSpecForestB p cs

end

mutual

/-- Every leaf of the tree has a falsy `isIndeterminate` field, as produced by
`createStatefulTree` and preserved by reconciliation. -/
def leafIndetOkB : STree → Bool
  | .node _ st cs =>
    if cs.isEmpty then !(st.isIndeterminate.getD false) else leafIndetOkForestB cs

def leafIndetOkForestB : List STree → Bool
  | [] => true
  | c :: cs => leafIndetOkB c && leafIndetOkForestB cs

end

mutual

/-- The generated-expansion ids read back from a reconciled tree: in auto
mode, the id of every branch whose stored expansion flag is true, children
first, then the node itself. -/
def collectGen (p : GoParams) : STree → List String
  | .node i st cs =>
    if cs.isEmpty then []
    else collectGenForest p cs ++
      (if !p.expansionListProvided && st.isExpanded.getD false then [i] else [])

def collectGenForest (p : GoParams) : List STree → List String
  | [] => []
  | c :: cs => collectGen p c ++ collectGenForest p cs

end

/-- Example raw tree used by the concrete witnesses: root -> A:[l1,l2], B:[l3]. -/
def exampleRaw : RawTree :=
  .node "root" [.node "A" [.node "l1" [], .node "l2" []], .node "B" [.node "l3" []]]

/-- The reconciled output of the example tree in explicit expansion mode with
caller list ["A"] and nothing selected. -/
def exampleExplicitOut : STree :=
  (applyPropsToStatefulTree (createStatefulTree exampleRaw) true false true "" []
    (some ["A"]) false (fun _ => true) none).statefulTree

/-- The reconciled output of the example tree in auto expansion mode with l1
selected. -/
def exampleAutoOut : STree :=
  (applyPropsToStatefulTree (createStatefulTree exampleRaw) true false true "" ["l1"]
    none false (fun _ => true) none).statefulTree

/-- The A branch of the example tree, used to instantiate subtree-quantified
claims. -/
def exampleBranchA : RawTree := .node "A" [.node "l1" [], .node "l2" []]

/-- Controller props with the given search term and selected list, the other
reconciliation inputs unset. -/
def mkProps (t : String) (sel : List String) : DebProps :=
  { searchTerm := t
    selectedList := sel
    expandedList := none
    filteredList := none }

/-- The reconciled two-leaf example branch P -> x, y with the given selected
list. -/
def twoLeafOut (sel : List String) : STree :=
  (applyPropsToStatefulTree
    (createStatefulTree (.node "P" [.node "x" [], .node "y" []]))
    true false true "" sel none false (fun _ => true) none).statefulTree

theorem contains_true {l : List String} {x : String} (h : l.contains x = true) : x ∈ l := by
  simpa using h

theorem contains_false {l : List String} {x : String} (h : l.contains x = false) : x ∉ l := by
  simpa using h

theorem jsSetAdd_contains (s : List String) (x y : String) :
    (jsSetAdd s x).contains y = (s.contains y || y == x) := by
  unfold jsSetAdd
  cases h : s.contains x with
  | true =>
    have hx : x ∈ s := contains_true h
    by_cases hyx : y = x
    · subst hyx
      simp [h, hx]
    · simp [h, hx, beq_eq_decide, hyx]
  | false =>
    have hx : x ∉ s := contains_false h
    by_cases hyx : y = x
    · subst hyx
      simp [h, hx, beq_eq_decide]
    · simp [h, beq_eq_decide, hyx]

theorem jsSetFrom_aux_contains (l : List String) :
    ∀ (acc : List String) (y : String),
      (l.foldl jsSetAdd acc).contains y = (acc.contains y || l.contains y) := by
  induction l with
  | nil => intro acc y; simp
  | cons x xs ih =>
    intro acc y
    simp only [List.foldl_cons, ih, jsSetAdd_contains]
    simp only [List.contains_cons]
    cases h : acc.contains y <;> cases h2 : y == x <;> simp [h, h2, Bool.or_comm]

theorem jsSetFrom_contains (l : List String) (y : String) :
    (jsSetFrom l).contains y = l.contains y := by
  unfold jsSetFrom
  simpa using jsSetFrom_aux_contains l [] y

theorem jsSetFrom_mem (l : List String) (y : String) :
    y ∈ jsSetFrom l ↔ y ∈ l := by
  have := jsSetFrom_contains l y
  simpa using this

theorem dedupFirst_cons (x : String) (xs : List String) :
    dedupFirst (x :: xs) = x :: dedupFirst (xs.filter (fun y => !(y == x))) := by
  simp [dedupFirst]

theorem jsSetFrom_aux_eq_dedupFirst (l : List String) :
    ∀ acc : List String,
      l.foldl jsSetAdd acc = acc ++ dedupFirst (l.filter (fun y => !(acc.contains y))) := by
  induction l with
  | nil => intro acc; simp [dedupFirst]
  | cons x xs ih =>
    intro acc
    simp only [List.foldl_cons, List.filter_cons]
    cases h : acc.contains x with
    | true =>
      have hadd : jsSetAdd acc x = acc := by simp [jsSetAdd, contains_true h]
      simp only [hadd, h, Bool.not_true, Bool.false_eq_true, if_false, ih acc]
    | false =>
      have hadd : jsSetAdd acc x = acc ++ [x] := by simp [jsSetAdd, contains_false h]
      have hpred : (fun y => !((acc ++ [x]).contains y)) =
          (fun y => (!(y == x)) && (!(acc.contains y))) := by
        funext y
        by_cases h1 : y ∈ acc <;> by_cases h2 : y = x <;>
          simp [h1, h2, beq_eq_decide]
      rw [hadd, ih (acc ++ [x]), hpred]
      simp only [h, Bool.not_false, if_true]
      rw [dedupFirst_cons, ← List.filter_filter, List.append_assoc, List.singleton_append]

theorem jsSetFrom_eq_dedupFirst (l : List String) : jsSetFrom l = dedupFirst l := by
  unfold jsSetFrom
  have := jsSetFrom_aux_eq_dedupFirst l []
  simpa using this

theorem addOrRemove_contains (l : List String) (x y : String) :
    (addOrRemove l x).contains y =
      (if y = x then !(l.contains x) else l.contains y) := by
  unfold addOrRemove
  cases h : l.contains x with
  | true =>
    by_cases hyx : y = x
    · subst hyx
      simp [h, List.mem_filter]
    · simp [h, hyx, List.mem_filter, beq_eq_decide]
  | false =>
    have hx : x ∉ l := by simpa using h
    by_cases hyx : y = x
    · subst hyx
      simp [h, hx]
    · simp [h, hyx, beq_eq_decide]

theorem applyGo_unmodified (p : GoParams) (t : STree)
    (h : (applyGo p t).2.1 = false) : (applyGo p t).1 = t := by
  cases t with
  | node i st cs =>
    simp only [applyGo] at h ⊢
    split_ifs at h ⊢ <;> rfl

theorem applyGoForest_map_fst (p : GoParams) (l : List STree) :
    (applyGoForest p l).map Prod.fst = l.map (fun c => (applyGo p c).1) := by
  induction l with
  | nil => rfl
  | cons c cs ih => simp [applyGoForest, ih]

theorem applyGoForest_isEmpty (p : GoParams) (l : List STree) :
    ((applyGoForest p l).map Prod.fst).isEmpty = l.isEmpty := by
  cases l <;> simp [applyGoForest]

theorem applyGoForest_all_unmodified (p : GoParams) (l : List STree)
    (h : (applyGoForest p l).any (fun r => r.2.1) = false) :
    (applyGoForest p l).map Prod.fst = l := by
  induction l with
  | nil => rfl
  | cons c cs ih =>
    simp only [applyGoForest, List.any_cons, Bool.or_eq_false_iff] at h
    simp only [applyGoForest, List.map_cons]
    rw [applyGo_unmodified p c h.1, ih h.2]

mutual

theorem reconSpec_applyGo (p : GoParams) :
    ∀ t : STree, reconSpecB p ((applyGo p t).1) = true
  | .node i st cs => by
    have hforest := reconSpec_applyGoForest p cs
    cases hcs : cs.isEmpty with
    | true =>
      have hnil : cs = [] := by simpa using hcs
      subst hnil
      cases hm : leafModify p i st with
      | true => simp [applyGo, hm, reconSpecB, leafNewState]
      | false =>
        have hc := hm
        simp only [leafModify, Bool.or_eq_false_iff, bne_eq_false_iff_eq] at hc
        obtain ⟨h1, h2⟩ := hc
        simp [applyGo, hm, reconSpecB, ← h1, ← h2]
    | false =>
      cases hchild : (applyGoForest p cs).any (fun r => r.2.1) with
      | true =>
        simp [applyGo, hcs, hchild, reconSpecB, applyGoForest_isEmpty,
          branchNewState, hforest]
      | false =>
        have hmap : (applyGoForest p cs).map Prod.fst = cs :=
          applyGoForest_all_unmodified p cs hchild
        cases hown : branchModifyOwn p i st ((applyGoForest p cs).map Prod.fst) with
        | true =>
          simp [applyGo, hcs, hchild, hown, reconSpecB, applyGoForest_isEmpty,
            branchNewState, hforest]
        | false =>
          have hb := hown
          simp only [branchModifyOwn, Bool.or_eq_false_iff, bne_eq_false_iff_eq] at hb
          obtain ⟨⟨⟨h1, h2⟩, h3⟩, h4⟩ := hb
          rw [hmap] at hforest h1 h2 h3 h4
          simp [applyGo, hcs, hchild, hown, reconSpecB, hforest,
            ← h1, ← h2, ← h3, ← h4]

theorem reconSpec_applyGoForest (p : GoParams) :
    ∀ l : List STree, reconSpecForestB p ((applyGoForest p l).map Prod.fst) = true
  | [] => rfl
  | c :: cs => by
    simp only [applyGoForest, List.map_cons, reconSpecForestB, Bool.and_eq_true]
    exact ⟨reconSpec_applyGo p c, reconSpec_applyGoForest p cs⟩

end

theorem applyGoForest_mem (p : GoParams) (l : List STree) :
    ∀ r ∈ applyGoForest p l, ∃ c ∈ l, r = applyGo p c := by
  induction l with
  | nil => intro r hr; cases hr
  | cons d ds ih =>
    intro r hr
    rcases hr with _ | hr
    · exact ⟨d, List.mem_cons_self d ds, rfl⟩
    · obtain ⟨c, hc, hrc⟩ := ih r (by assumption)
      exact ⟨c, List.mem_cons_of_mem d hc, hrc⟩

theorem list_map_eq_self {α : Type} {f : α → α} {l : List α} (h : l.map f = l) :
    ∀ c ∈ l, f c = c := by
  induction l with
  | nil => intro c hc; cases hc
  | cons d ds ih =>
    simp only [List.map_cons, List.cons.injEq] at h
    intro c hc
    rcases hc with _ | hc
    · exact h.1
    · exact ih h.2 c (by assumption)

mutual

theorem applyGo_modified_neq (p : GoParams) :
    ∀ t : STree, (applyGo p t).2.1 = true → (applyGo p t).1 ≠ t
  | .node i st cs => by
    have hkids := applyGoForest_modified_neq p cs
    intro hflag heq
    cases hcs : cs.isEmpty with
    | true =>
      have hnil : cs = [] := by simpa using hcs
      subst hnil
      cases hm : leafModify p i st with
      | false => simp [applyGo, hm] at hflag
      | true =>
        simp only [applyGo, List.isEmpty_nil, if_true, hm] at heq
        have hstate : leafNewState p i st = st := by
          simpa [STree.node.injEq] using heq
        have h1 := congrArg NodeState.isSelected hstate
        have h2 := congrArg NodeState.isVisible hstate
        simp only [leafNewState] at h1 h2
        simp [leafModify, h1, h2] at hm
    | false =>
      cases hchild : (applyGoForest p cs).any (fun r => r.2.1) with
      | true =>
        obtain ⟨r, hr, hrt⟩ := List.any_eq_true.mp hchild
        obtain ⟨c, hc, rfl⟩ := applyGoForest_mem p cs r hr
        simp only [applyGo, hcs, Bool.false_eq_true, if_false, hchild, Bool.true_or,
          if_true] at heq
        have hmapeq : (applyGoForest p cs).map Prod.fst = cs :=
          (by simpa [STree.node.injEq] using heq : _ ∧ _).2
        rw [applyGoForest_map_fst] at hmapeq
        exact hkids c hc hrt (list_map_eq_self hmapeq c hc)
      | false =>
        cases hown : branchModifyOwn p i st ((applyGoForest p cs).map Prod.fst) with
        | false => simp [applyGo, hcs, hchild, hown] at hflag
        | true =>
          simp only [applyGo, hcs, Bool.false_eq_true, if_false, hchild, hown,
            Bool.false_or, if_true] at heq
          have hstate : branchNewState p i st ((applyGoForest p cs).map Prod.fst) = st :=
            (by simpa [STree.node.injEq] using heq : _ ∧ _).1
          have h1 := congrArg NodeState.isSelected hstate
          have h2 := congrArg NodeState.isIndeterminate hstate
          have h3 := congrArg NodeState.isExpanded hstate
          have h4 := congrArg NodeState.isVisible hstate
          simp only [branchNewState] at h1 h2 h3 h4
          simp [branchModifyOwn, h1, h2, h3, h4] at hown

theorem applyGoForest_modified_neq (p : GoParams) :
    ∀ l : List STree, ∀ c ∈ l, (applyGo p c).2.1 = true → (applyGo p c).1 ≠ c
  | [] => by intro c hc; cases hc
  | d :: ds => by
    intro c hc
    rcases hc with _ | hc
    · exact applyGo_modified_neq p d
    · exact applyGoForest_modified_neq p ds c (by assumption)

end

theorem applyGo_modified_iff (p : GoParams) (t : STree) :
    (applyGo p t).2.1 = true ↔ (applyGo p t).1 ≠ t := by
  constructor
  · exact applyGo_modified_neq p t
  · intro hne
    cases hflag : (applyGo p t).2.1 with
    | false => exact absurd (applyGo_unmodified p t hflag) hne
    | true => rfl

theorem collectGenForest_eq_flatten (p : GoParams) (l : List STree) :
    (l.map (collectGen p)).flatten = collectGenForest p l := by
  induction l with
  | nil => rfl
  | cons c cs ih => simp [collectGenForest, ih]

mutual

theorem applyGo_of_reconSpec (p : GoParams) :
    ∀ t : STree, reconSpecB p t = true → applyGo p t = (t, false, collectGen p t)
  | .node i st cs => by
    intro h
    cases hcs : cs.isEmpty with
    | true =>
      have hnil : cs = [] := by simpa using hcs
      subst hnil
      simp only [reconSpecB, List.isEmpty_nil, if_true, Bool.and_eq_true, beq_iff_eq] at h
      obtain ⟨h1, h2⟩ := h
      have hm : leafModify p i st = false := by simp [leafModify, ← h1, ← h2]
      simp [applyGo, hm, collectGen]
    | false =>
      simp only [reconSpecB, hcs, Bool.false_eq_true, if_false, Bool.and_eq_true,
        beq_iff_eq] at h
      obtain ⟨⟨⟨⟨h1, h2⟩, h3⟩, h4⟩, hforest⟩ := h
      have hf := applyGoForest_of_reconSpec p cs hforest
      have hmapped : (applyGoForest p cs).map Prod.fst = cs := by
        rw [hf, List.map_map]
        have hcomp : (Prod.fst ∘ fun c : STree => (c, false, collectGen p c)) = id := rfl
        rw [hcomp, List.map_id]
      have hany : ((applyGoForest p cs).any fun r => r.2.1) = false := by
        rw [hf]
        simp
      have hown : branchModifyOwn p i st ((applyGoForest p cs).map Prod.fst) = false := by
        rw [hmapped]
        simp [branchModifyOwn, ← h1, ← h2, ← h3, ← h4]
      have hgen : ((applyGoForest p cs).map fun r => r.2.2).flatten = collectGenForest p cs := by
        rw [hf, List.map_map]
        have : ((fun r : STree × Bool × List String => r.2.2) ∘
            (fun c => (c, false, collectGen p c))) = collectGen p := rfl
        rw [this, collectGenForest_eq_flatten]
      simp only [applyGo, hcs, Bool.false_eq_true, if_false, hany, hown, Bool.or_self,
        if_false]
      rw [hgen]
      simp [collectGen, hcs, branchOwnGen, hmapped, h4]

theorem applyGoForest_of_reconSpec (p : GoParams) :
    ∀ l : List STree, reconSpecForestB p l = true →
      applyGoForest p l = l.map (fun c => (c, false, collectGen p c))
  | [] => by intro _; rfl
  | c :: cs => by
    intro h
    simp only [reconSpecForestB, Bool.and_eq_true] at h
    simp only [applyGoForest, List.map_cons]
    rw [applyGo_of_reconSpec p c h.1, applyGoForest_of_reconSpec p cs h.2]

end

mutual

theorem collectGen_applyGo (p : GoParams) :
    ∀ t : STree, collectGen p ((applyGo p t).1) = (applyGo p t).2.2
  | .node i st cs => by
    have hforest := collectGenForest_applyGo p cs
    cases hcs : cs.isEmpty with
    | true =>
      have hnil : cs = [] := by simpa using hcs
      subst hnil
      cases hm : leafModify p i st with
      | true => simp [applyGo, hm, collectGen]
      | false => simp [applyGo, hm, collectGen]
    | false =>
      cases hmod : (((applyGoForest p cs).any fun r => r.2.1) ||
          branchModifyOwn p i st ((applyGoForest p cs).map Prod.fst)) with
      | true =>
        simp only [applyGo, hcs, Bool.false_eq_true, if_false, hmod, if_true]
        simp only [collectGen, applyGoForest_isEmpty, hcs, Bool.false_eq_true, if_false]
        rw [hforest]
        simp [branchNewState, branchOwnGen]
      | false =>
        obtain ⟨hany, hown⟩ := Bool.or_eq_false_iff.mp hmod
        have hmap : (applyGoForest p cs).map Prod.fst = cs :=
          applyGoForest_all_unmodified p cs hany
        have hb := hown
        simp only [branchModifyOwn, Bool.or_eq_false_iff, bne_eq_false_iff_eq] at hb
        obtain ⟨⟨⟨e1, e2⟩, e3⟩, e4⟩ := hb
        rw [hmap] at hforest e3
        simp only [applyGo, hcs, Bool.false_eq_true, if_false, hany, hown, Bool.or_self,
          if_false]
        simp only [collectGen, hcs, Bool.false_eq_true, if_false]
        rw [hforest, ← e3]
        simp [branchOwnGen, hmap]

theorem collectGenForest_applyGo (p : GoParams) :
    ∀ l : List STree,
      collectGenForest p ((applyGoForest p l).map Prod.fst) =
        ((applyGoForest p l).map fun r => r.2.2).flatten
  | [] => rfl
  | c :: cs => by
    simp only [applyGoForest, List.map_cons, collectGenForest, List.flatten_cons]
    rw [collectGen_applyGo p c, collectGenForest_applyGo p cs]

end

theorem applyGo_idempotent (p : GoParams) (t : STree) :
    applyGo p ((applyGo p t).1) = ((applyGo p t).1, false, (applyGo p t).2.2) := by
  rw [applyGo_of_reconSpec p ((applyGo p t).1) (reconSpec_applyGo p t),
    collectGen_applyGo p t]

/-- C4: Reconciliation is idempotent: for every annotated tree and every fixed
set of inputs, applying the reconciliation to its own output with unchanged
inputs returns the identical result (same root reference, every node
unchanged), and the root's `modifyThisNode` flag is false, so no new node is
allocated anywhere. -/
theorem claim_C4_reconciliation_idempotent (root : STree)
    (isSelectable isSearchable isMultiPick : Bool) (searchTerm : String)
    (selectedList : List String) (propsExpandedList : Option (List String))
    (isAdditionalFilterApplied : Bool) (isLeafVisible : String → Bool)
    (stateExpandedList : Option (List String)) :
    applyPropsToStatefulTree
        (applyPropsToStatefulTree root isSelectable isSearchable isMultiPick searchTerm
          selectedList propsExpandedList isAdditionalFilterApplied isLeafVisible
          stateExpandedList).statefulTree
        isSelectable isSearchable isMultiPick searchTerm selectedList propsExpandedList
        isAdditionalFilterApplied isLeafVisible stateExpandedList =
      applyPropsToStatefulTree root isSelectable isSearchable isMultiPick searchTerm
        selectedList propsExpandedList isAdditionalFilterApplied isLeafVisible
        stateExpandedList ∧
    (applyGo
        (makeGoParams isSelectable isSearchable isMultiPick searchTerm selectedList
          propsExpandedList stateExpandedList isAdditionalFilterApplied isLeafVisible)
        (applyPropsToStatefulTree root isSelectable isSearchable isMultiPick searchTerm
          selectedList propsExpandedList isAdditionalFilterApplied isLeafVisible
          stateExpandedList).statefulTree).2.1 = false := by
  constructor
  · simp only [applyPropsToStatefulTree]
    rw [applyGo_idempotent]
  · simp only [applyPropsToStatefulTree]
    rw [applyGo_idempotent]

/-- C9: When multi-pick is disabled and the selected list has more than one
id, reconciliation retains only the first id and behaves exactly as if the
selected list contained only that id, while emitting the diagnostic; being a
total function it never fails. -/
theorem claim_C9_single_pick_truncation (root : STree)
    (isSelectable isSearchable : Bool) (searchTerm : String) (a b : String)
    (rest : List String) (propsExpandedList : Option (List String))
    (isAdditionalFilterApplied : Bool) (isLeafVisible : String → Bool)
    (stateExpandedList : Option (List String)) :
    applyPropsToStatefulTree root isSelectable isSearchable false searchTerm
        (a :: b :: rest) propsExpandedList isAdditionalFilterApplied isLeafVisible
        stateExpandedList =
      applyPropsToStatefulTree root isSelectable isSearchable false searchTerm [a]
        propsExpandedList isAdditionalFilterApplied isLeafVisible stateExpandedList ∧
    singlePickDiagnosticEmitted false (a :: b :: rest) = true := by
  have hlen : (a :: b :: rest).length > 1 := by simp
  constructor
  · simp [applyPropsToStatefulTree, makeGoParams, decide_eq_true hlen]
  · simp [singlePickDiagnosticEmitted, decide_eq_true hlen]

/-- C10: In explicit expansion mode the returned expansion list is the
caller's list with duplicates removed, first occurrence kept in order
(`dedupFirst`); it is therefore equal to the caller's list as a set, but a
caller list with repeated ids comes back shortened, hence not always
element-for-element identical. -/
theorem claim_C10_explicit_expansion_dedup (root : STree)
    (isSelectable isSearchable isMultiPick : Bool) (searchTerm : String)
    (selectedList : List String) (l : List String)
    (isAdditionalFilterApplied : Bool) (isLeafVisible : String → Bool)
    (stateExpandedList : Option (List String)) :
    (applyPropsToStatefulTree root isSelectable isSearchable isMultiPick searchTerm
        selectedList (some l) isAdditionalFilterApplied isLeafVisible
        stateExpandedList).expandedList = dedupFirst l ∧
    (∀ x, x ∈ (applyPropsToStatefulTree root isSelectable isSearchable isMultiPick
        searchTerm selectedList (some l) isAdditionalFilterApplied isLeafVisible
        stateExpandedList).expandedList ↔ x ∈ l) ∧
    (applyPropsToStatefulTree (createStatefulTree (.node "r" [])) true false true ""
        [] (some ["a", "a"]) false (fun _ => true) none).expandedList ≠ ["a", "a"] := by
  refine ⟨?_, ?_, by decide⟩
  · simp only [applyPropsToStatefulTree, makeGoParams]
    simp [jsSetFrom_eq_dedupFirst]
  · intro x
    simp only [applyPropsToStatefulTree, makeGoParams]
    simp [jsSetFrom_mem]

theorem getD_false_eq_true_iff (o : Option Bool) : o.getD false = true ↔ o = some true := by
  cases o <;> simp

mutual

theorem reconSpec_subnodes (p : GoParams) :
    ∀ u : STree, reconSpecB p u = true → ∀ s ∈ STree.subnodes u, reconSpecB p s = true
  | .node i st cs => by
    intro h s hs
    cases hcs : cs.isEmpty with
    | true =>
      have hnil : cs = [] := by simpa using hcs
      subst hnil
      have hseq : s = STree.node i st [] := by
        simpa [STree.subnodes, STree.subnodesForest] using hs
      rw [hseq]
      exact h
    | false =>
      simp only [STree.subnodes] at hs
      rcases hs with _ | hs
      · exact h
      · have hforest : reconSpecForestB p cs = true := by
          simp only [reconSpecB, hcs, Bool.false_eq_true, if_false, Bool.and_eq_true] at h
          exact h.2
        exact reconSpecForest_subnodes p cs hforest s (by assumption)

theorem reconSpecForest_subnodes (p : GoParams) :
    ∀ l : List STree, reconSpecForestB p l = true →
      ∀ s ∈ STree.subnodesForest l, reconSpecB p s = true
  | [] => by intro _ s hs; cases hs
  | c :: cs => by
    intro h s hs
    simp only [reconSpecForestB, Bool.and_eq_true] at h
    simp only [STree.subnodesForest, List.mem_append] at hs
    rcases hs with hs | hs
    · exact reconSpec_subnodes p c h.1 s hs
    · exact reconSpecForest_subnodes p cs h.2 s hs

end

theorem reconSpec_branch_fields {p : GoParams} {s : STree}
    (h : reconSpecB p s = true) (hb : s.children.isEmpty = false) :
    s.state.isSelected = branchIsSelected s.children ∧
    s.state.isIndeterminate = some (branchIsIndeterminate s.children) ∧
    s.state.isVisible = anyVisibleChild s.children ∧
    s.state.isExpanded = some (branchIsExpanded p s.id s.children) := by
  cases s with
  | node i st cs =>
    simp only [STree.children] at hb
    simp only [reconSpecB, hb, Bool.false_eq_true, if_false, Bool.and_eq_true,
      beq_iff_eq] at h
    exact ⟨h.1.1.1.1, h.1.1.1.2, h.1.1.2, h.1.2⟩

theorem reconSpec_leaf_fields {p : GoParams} {s : STree}
    (h : reconSpecB p s = true) (hl : s.children.isEmpty = true) :
    s.state.isSelected = leafIsSelected p s.id ∧
    s.state.isVisible = p.isLeafVisible s.id := by
  cases s with
  | node i st cs =>
    simp only [STree.children] at hl
    simp only [reconSpecB, hl, if_true, Bool.and_eq_true, beq_iff_eq] at h
    exact h

mutual

theorem collectGen_mem (p : GoParams) (hp : p.expansionListProvided = false) :
    ∀ u : STree, ∀ x : String,
      x ∈ collectGen p u ↔
        ∃ s ∈ STree.subnodes u, s.children.isEmpty = false ∧
          s.state.isExpanded = some true ∧ s.id = x
  | .node i st cs => by
    intro x
    cases hcs : cs.isEmpty with
    | true =>
      have hnil : cs = [] := by simpa using hcs
      subst hnil
      simp [collectGen, STree.subnodes, STree.subnodesForest, STree.children]
    | false =>
      have hforest := collectGenForest_mem p hp cs x
      simp only [collectGen, hcs, Bool.false_eq_true, if_false, hp, Bool.not_false,
        Bool.true_and, List.mem_append, hforest]
      constructor
      · intro h
        rcases h with h | h
        · obtain ⟨s, hs, hrest⟩ := h
          exact ⟨s, by simp only [STree.subnodes]; exact List.mem_cons_of_mem _ hs, hrest⟩
        · by_cases hc : st.isExpanded.getD false = true
          · simp only [hc, if_true, List.mem_singleton] at h
            refine ⟨.node i st cs,
              by simp only [STree.subnodes]; exact List.mem_cons_self _ _,
              by simpa [STree.children] using hcs, ?_, ?_⟩
            · have hsome := (getD_false_eq_true_iff st.isExpanded).mp hc
              simpa [STree.state] using hsome
            · simpa [STree.id] using h.symm
          · simp only [Bool.not_eq_true] at hc
            simp [hc] at h
      · intro h
        obtain ⟨s, hs, hne, hexp, hid⟩ := h
        simp only [STree.subnodes] at hs
        rcases hs with _ | hs
        · right
          have hst : st.isExpanded = some true := by simpa [STree.state] using hexp
          have hxi : x = i := by
            have := hid
            simp only [STree.id] at this
            exact this.symm
          simp [hst, hxi]
        · left
          exact ⟨s, by assumption, hne, hexp, hid⟩

theorem collectGenForest_mem (p : GoParams) (hp : p.expansionListProvided = false) :
    ∀ l : List STree, ∀ x : String,
      x ∈ collectGenForest p l ↔
        ∃ s ∈ STree.subnodesForest l, s.children.isEmpty = false ∧
          s.state.isExpanded = some true ∧ s.id = x
  | [] => by intro x; simp [collectGenForest, STree.subnodesForest]
  | c :: cs => by
    intro x
    simp only [collectGenForest, STree.subnodesForest, List.mem_append,
      collectGen_mem p hp c x, collectGenForest_mem p hp cs x]
    constructor
    · intro h
      rcases h with ⟨s, hs, hrest⟩ | ⟨s, hs, hrest⟩
      · exact ⟨s, Or.inl hs, hrest⟩
      · exact ⟨s, Or.inr hs, hrest⟩
    · intro h
      obtain ⟨s, hs, hrest⟩ := h
      rcases hs with hs | hs
      · exact Or.inl ⟨s, hs, hrest⟩
      · exact Or.inr ⟨s, hs, hrest⟩

end

/-- C1: A caller-supplied expansion list is authoritative even when empty: if
`propsExpandedList` is set (including `some []`), every branch's expansion
flag is membership in that list ORed with search-forced expansion, and the
returned expansion list is the caller's set echoed back (nothing is derived);
only when the caller's list is unset (and no state list is supplied) does the
engine derive expansion by the auto rule and return the generated list - whose
members are exactly the ids of the expanded branches of the output tree. -/
theorem claim_C1_expansion_mode (root : STree)
    (isSelectable isSearchable isMultiPick : Bool) (searchTerm : String)
    (selectedList : List String) (isAdditionalFilterApplied : Bool)
    (isLeafVisible : String → Bool) (stateExpandedList : Option (List String)) :
    (∀ l : List String,
      (∀ s ∈ STree.subnodes (applyPropsToStatefulTree root isSelectable isSearchable
          isMultiPick searchTerm selectedList (some l) isAdditionalFilterApplied
          isLeafVisible stateExpandedList).statefulTree,
        s.children.isEmpty = false →
          s.state.isExpanded = some
            ((isActiveSearch isAdditionalFilterApplied isSearchable searchTerm &&
              s.state.isVisible) || l.contains s.id)) ∧
      (applyPropsToStatefulTree root isSelectable isSearchable isMultiPick searchTerm
          selectedList (some l) isAdditionalFilterApplied isLeafVisible
          stateExpandedList).expandedList = jsSetFrom l) ∧
    ((∀ s ∈ STree.subnodes (applyPropsToStatefulTree root isSelectable isSearchable
          isMultiPick searchTerm selectedList none isAdditionalFilterApplied
          isLeafVisible none).statefulTree,
        s.children.isEmpty = false →
          s.state.isExpanded = some
            ((isActiveSearch isAdditionalFilterApplied isSearchable searchTerm &&
              s.state.isVisible) ||
              (anyIndeterminateChild s.children ||
                (anySelectedChild s.children &&
                  (!isMultiPick || anyUnselectedChild s.children))))) ∧
      (∀ x : String,
        x ∈ (applyPropsToStatefulTree root isSelectable isSearchable isMultiPick
            searchTerm selectedList none isAdditionalFilterApplied isLeafVisible
            none).expandedList ↔
          ∃ s ∈ STree.subnodes (applyPropsToStatefulTree root isSelectable isSearchable
              isMultiPick searchTerm selectedList none isAdditionalFilterApplied
              isLeafVisible none).statefulTree,
            s.children.isEmpty = false ∧ s.state.isExpanded = some true ∧ s.id = x)) := by
  refine ⟨fun l => ⟨?_, ?_⟩, ?_, ?_⟩
  · intro s hs hb
    have hsp := reconSpec_subnodes _ _ (reconSpec_applyGo _ root) s
      (by simpa [applyPropsToStatefulTree] using hs)
    have hf := reconSpec_branch_fields hsp hb
    rw [hf.2.2.2]
    simp [branchIsExpanded, makeGoParams, jsSetFrom_mem, ← hf.2.2.1]
  · simp [applyPropsToStatefulTree, makeGoParams]
  · intro s hs hb
    have hsp := reconSpec_subnodes _ _ (reconSpec_applyGo _ root) s
      (by simpa [applyPropsToStatefulTree] using hs)
    have hf := reconSpec_branch_fields hsp hb
    rw [hf.2.2.2]
    simp [branchIsExpanded, makeGoParams, ← hf.2.2.1]
  · intro x
    have hp : (makeGoParams isSelectable isSearchable isMultiPick searchTerm selectedList
        none none isAdditionalFilterApplied isLeafVisible).expansionListProvided
        = false := by
      simp [makeGoParams]
    simp only [applyPropsToStatefulTree, hp, Bool.false_eq_true, if_false]
    rw [jsSetFrom_mem, ← collectGen_applyGo, collectGen_mem _ hp]

/-- C8: For every branch of the reconciled tree the expansion flag equals
exactly `(searchActive AND newIsVisible) OR (expansion list provided ? id in
that list : indeterminateChildFound OR (selectedChildFound AND (NOT multiPick
OR unselectedChildFound)))`; and on the tree root -> A:[l1,l2], B:[l3] with
selectedList [l1], multi-pick, and no caller expansion list, A is
indeterminate and expanded while B is collapsed. -/
theorem claim_C8_branch_expansion_formula (root : STree)
    (isSelectable isSearchable isMultiPick : Bool) (searchTerm : String)
    (selectedList : List String) (propsExpandedList : Option (List String))
    (isAdditionalFilterApplied : Bool) (isLeafVisible : String → Bool) :
    (∀ s ∈ STree.subnodes (applyPropsToStatefulTree root isSelectable isSearchable
        isMultiPick searchTerm selectedList propsExpandedList
        isAdditionalFilterApplied isLeafVisible none).statefulTree,
      s.children.isEmpty = false →
        s.state.isExpanded = some
          ((isActiveSearch isAdditionalFilterApplied isSearchable searchTerm &&
            s.state.isVisible) ||
            (match propsExpandedList with
             | some l => l.contains s.id
             | none =>
               anyIndeterminateChild s.children ||
                 (anySelectedChild s.children &&
                   (!isMultiPick || anyUnselectedChild s.children))))) ∧
    ((applyPropsToStatefulTree
        (createStatefulTree (.node "root" [.node "A" [.node "l1" [], .node "l2" []],
          .node "B" [.node "l3" []]]))
        true false true "" ["l1"] none false (fun _ => true) none).statefulTree.children.map
        (fun c => (c.id, c.state.isIndeterminate, c.state.isExpanded)) =
      [("A", some true, some true), ("B", some false, some false)]) := by
  constructor
  · intro s hs hb
    have hsp := reconSpec_subnodes _ _ (reconSpec_applyGo _ root) s
      (by simpa [applyPropsToStatefulTree] using hs)
    have hf := reconSpec_branch_fields hsp hb
    rw [hf.2.2.2]
    cases propsExpandedList with
    | some l => simp [branchIsExpanded, makeGoParams, jsSetFrom_mem, ← hf.2.2.1]
    | none => simp [branchIsExpanded, makeGoParams, ← hf.2.2.1]
  · decide

theorem claim_C1_expansion_mode_witness :
    exampleExplicitOut ∈ STree.subnodes exampleExplicitOut ∧
    exampleExplicitOut.children.isEmpty = false ∧
    exampleExplicitOut.state.isExpanded = some
      ((isActiveSearch false false "" && exampleExplicitOut.state.isVisible) ||
        (["A"].contains exampleExplicitOut.id)) :=
  ⟨by decide, by decide,
    ((claim_C1_expansion_mode (createStatefulTree exampleRaw) true false true "" []
      false (fun _ => true) none).1 ["A"]).1 exampleExplicitOut (by decide) (by decide)⟩

theorem claim_C8_branch_expansion_formula_witness :
    exampleAutoOut ∈ STree.subnodes exampleAutoOut ∧
    exampleAutoOut.children.isEmpty = false ∧
    exampleAutoOut.state.isExpanded = some
      ((isActiveSearch false false "" && exampleAutoOut.state.isVisible) ||
        (anyIndeterminateChild exampleAutoOut.children ||
          (anySelectedChild exampleAutoOut.children &&
            (!true || anyUnselectedChild exampleAutoOut.children)))) :=
  ⟨by decide, by decide,
    (claim_C8_branch_expansion_formula (createStatefulTree exampleRaw) true false true ""
      ["l1"] none false (fun _ => true)).1 exampleAutoOut (by decide) (by decide)⟩

mutual

theorem addVisibleLeaves_parentTrue (pred : RawTree → Bool) :
    ∀ t : RawTree, addVisibleLeaves pred none t true = RawTree.leafIds t
  | .node i cs => by
    cases hcs : cs.isEmpty with
    | true =>
      have hnil : cs = [] := by simpa using hcs
      subst hnil
      simp [addVisibleLeaves, RawTree.leafIds]
    | false =>
      simp [addVisibleLeaves, RawTree.leafIds, hcs,
        addVisibleLeavesForest_parentTrue pred cs]

theorem addVisibleLeavesForest_parentTrue (pred : RawTree → Bool) :
    ∀ l : List RawTree, addVisibleLeavesForest pred none l true = RawTree.leafIdsForest l
  | [] => rfl
  | c :: cs => by
    simp [addVisibleLeavesForest, RawTree.leafIdsForest,
      addVisibleLeaves_parentTrue pred c, addVisibleLeavesForest_parentTrue pred cs]

end

mutual

theorem addVisibleLeaves_false_eq_matched (pred : RawTree → Bool) :
    ∀ t : RawTree, addVisibleLeaves pred none t false = matchedLeafIds pred t
  | .node i cs => by
    cases hcs : cs.isEmpty with
    | true =>
      have hnil : cs = [] := by simpa using hcs
      subst hnil
      cases hp : pred (.node i []) <;>
        simp [addVisibleLeaves, matchedLeafIds, matchedLeafIdsForest, RawTree.leafIds, hp]
    | false =>
      cases hp : pred (.node i cs) with
      | true =>
        simp [addVisibleLeaves, matchedLeafIds, hcs, hp, RawTree.leafIds,
          addVisibleLeavesForest_parentTrue pred cs]
      | false =>
        simp [addVisibleLeaves, matchedLeafIds, hcs, hp,
          addVisibleLeavesForest_false_eq_matched pred cs]

theorem addVisibleLeavesForest_false_eq_matched (pred : RawTree → Bool) :
    ∀ l : List RawTree,
      addVisibleLeavesForest pred none l false = matchedLeafIdsForest pred l
  | [] => rfl
  | c :: cs => by
    simp [addVisibleLeavesForest, matchedLeafIdsForest,
      addVisibleLeaves_false_eq_matched pred c,
      addVisibleLeavesForest_false_eq_matched pred cs]

end

mutual

theorem addVisibleLeaves_filter (pred : RawTree → Bool) (l : List String) :
    ∀ (t : RawTree) (pm : Bool),
      addVisibleLeaves pred (some l) t pm =
        (addVisibleLeaves pred none t pm).filter (fun lid => (jsSetFrom l).contains lid)
  | .node i cs, pm => by
    cases hcs : cs.isEmpty with
    | true =>
      have hnil : cs = [] := by simpa using hcs
      subst hnil
      cases pm with
      | true => simp [addVisibleLeaves, List.filter_cons]
      | false =>
        cases hp : pred (.node i []) <;>
          simp [addVisibleLeaves, hp, List.filter_cons]
    | false =>
      simp [addVisibleLeaves, hcs, addVisibleLeavesForest_filter pred l cs]

theorem addVisibleLeavesForest_filter (pred : RawTree → Bool) (l : List String) :
    ∀ (fs : List RawTree) (pm : Bool),
      addVisibleLeavesForest pred (some l) fs pm =
        (addVisibleLeavesForest pred none fs pm).filter
          (fun lid => (jsSetFrom l).contains lid)
  | [], _ => rfl
  | c :: cs, pm => by
    simp [addVisibleLeavesForest, List.filter_append,
      addVisibleLeaves_filter pred l c, addVisibleLeavesForest_filter pred l cs]

end

mutual

theorem leafIds_subnodes : ∀ t : RawTree, ∀ s ∈ RawTree.subnodes t,
    ∀ x ∈ RawTree.leafIds s, x ∈ RawTree.leafIds t
  | .node i cs => by
    intro s hs x hx
    cases hcs : cs.isEmpty with
    | true =>
      have hnil : cs = [] := by simpa using hcs
      subst hnil
      have hseq : s = RawTree.node i [] := by
        simpa [RawTree.subnodes, RawTree.subnodesForest] using hs
      rw [hseq] at hx
      exact hx
    | false =>
      simp only [RawTree.subnodes] at hs
      rcases hs with _ | hs
      · exact hx
      · have hmem := leafIdsForest_subnodes cs s (by assumption) x hx
        simpa [RawTree.leafIds, hcs] using hmem

theorem leafIdsForest_subnodes : ∀ l : List RawTree, ∀ s ∈ RawTree.subnodesForest l,
    ∀ x ∈ RawTree.leafIds s, x ∈ RawTree.leafIdsForest l
  | [] => by intro s hs; cases hs
  | c :: cs => by
    intro s hs x hx
    simp only [RawTree.subnodesForest, List.mem_append] at hs
    simp only [RawTree.leafIdsForest, List.mem_append]
    rcases hs with hs | hs
    · exact Or.inl (leafIds_subnodes c s hs x hx)
    · exact Or.inr (leafIdsForest_subnodes cs s hs x hx)

end

mutual

theorem matched_of_subnode (pred : RawTree → Bool) :
    ∀ t : RawTree, ∀ s ∈ RawTree.subnodes t, pred s = true →
      ∀ x ∈ RawTree.leafIds s, x ∈ matchedLeafIds pred t
  | .node i cs => by
    intro s hs hp x hx
    cases hcs : cs.isEmpty with
    | true =>
      have hnil : cs = [] := by simpa using hcs
      subst hnil
      have hseq : s = RawTree.node i [] := by
        simpa [RawTree.subnodes, RawTree.subnodesForest] using hs
      rw [hseq] at hp hx
      simp only [matchedLeafIds, hp, if_true]
      exact hx
    | false =>
      simp only [RawTree.subnodes] at hs
      rcases hs with _ | hs
      · simp only [matchedLeafIds, hp, if_true]
        exact hx
      · by_cases hpt : pred (.node i cs) = true
        · simp only [matchedLeafIds, hpt, if_true]
          have hmem := leafIdsForest_subnodes cs s (by assumption) x hx
          simpa [RawTree.leafIds, hcs] using hmem
        · simp only [Bool.not_eq_true] at hpt
          simp only [matchedLeafIds, hpt, Bool.false_eq_true, if_false]
          exact matchedForest_of_subnode pred cs s (by assumption) hp x hx

theorem matchedForest_of_subnode (pred : RawTree → Bool) :
    ∀ l : List RawTree, ∀ s ∈ RawTree.subnodesForest l, pred s = true →
      ∀ x ∈ RawTree.leafIds s, x ∈ matchedLeafIdsForest pred l
  | [] => by intro s hs; cases hs
  | c :: cs => by
    intro s hs hp x hx
    simp only [RawTree.subnodesForest, List.mem_append] at hs
    simp only [matchedLeafIdsForest, List.mem_append]
    rcases hs with hs | hs
    · exact Or.inl (matched_of_subnode pred c s hs hp x hx)
    · exact Or.inr (matchedForest_of_subnode pred cs s hs hp x hx)

end

/-- C6: An explicitly empty `filteredList` yields an empty visible set (no
leaf id tests visible); an unset `filteredList` imposes no leaf-level
restriction: with no active search every id tests visible, and with an active
search an id is visible exactly when it is the id of a leaf that matches the
predicate itself or through an ancestor (`matchedLeafIds`). -/
theorem claim_C6_filtered_list_semantics (tree : RawTree) (searchTerm : String)
    (searchPredicate : RawTree → List String → Bool)
    (isAdditionalFilterApplied isSearchable : Bool) :
    (∀ x : String,
      createIsLeafVisible tree searchTerm searchPredicate isAdditionalFilterApplied
        isSearchable (some []) x = false) ∧
    (isActiveSearch isAdditionalFilterApplied isSearchable searchTerm = false →
      ∀ x : String,
        createIsLeafVisible tree searchTerm searchPredicate isAdditionalFilterApplied
          isSearchable none x = true) ∧
    (isActiveSearch isAdditionalFilterApplied isSearchable searchTerm = true →
      ∀ x : String,
        (createIsLeafVisible tree searchTerm searchPredicate isAdditionalFilterApplied
          isSearchable none x = true ↔
          x ∈ matchedLeafIds
            (fun n => searchPredicate n (parseSearchQueryString searchTerm)) tree)) := by
  refine ⟨?_, ?_, ?_⟩
  · intro x
    simp only [createIsLeafVisible, Option.isNone_some, Bool.and_false,
      Bool.false_eq_true, if_false]
    rw [addVisibleLeaves_filter]
    simp [jsSetFrom]
  · intro hna x
    simp [createIsLeafVisible, hna]
  · intro hact x
    simp only [createIsLeafVisible, hact, Bool.not_true, Bool.false_and,
      Bool.false_eq_true, if_false]
    rw [addVisibleLeaves_false_eq_matched]
    simp

/-- C7: During an active search, predicate matches propagate strictly
downward: when the predicate holds of a subtree root, every descendant leaf id
of that subtree is visible, subject only to the `filteredList` restriction;
conversely a visible id always comes from a leaf that matches itself or
through an ancestor, so a matching leaf never makes a sibling visible. -/
theorem claim_C7_downward_propagation (tree : RawTree) (searchTerm : String)
    (searchPredicate : RawTree → List String → Bool)
    (isAdditionalFilterApplied isSearchable : Bool)
    (filteredList : Option (List String))
    (hactive : isActiveSearch isAdditionalFilterApplied isSearchable searchTerm = true) :
    (∀ s ∈ RawTree.subnodes tree,
      searchPredicate s (parseSearchQueryString searchTerm) = true →
      ∀ lid ∈ RawTree.leafIds s,
        (filteredList = none ∨ lid ∈ filteredList.getD []) →
        createIsLeafVisible tree searchTerm searchPredicate isAdditionalFilterApplied
          isSearchable filteredList lid = true) ∧
    (∀ lid : String,
      createIsLeafVisible tree searchTerm searchPredicate isAdditionalFilterApplied
        isSearchable filteredList lid = true →
        lid ∈ matchedLeafIds
          (fun n => searchPredicate n (parseSearchQueryString searchTerm)) tree) := by
  constructor
  · intro s hs hp lid hlid hfl
    have hm := matched_of_subnode
      (fun n => searchPredicate n (parseSearchQueryString searchTerm)) tree s hs hp lid hlid
    simp only [createIsLeafVisible, hactive, Bool.not_true, Bool.false_and,
      Bool.false_eq_true, if_false]
    cases filteredList with
    | none =>
      rw [addVisibleLeaves_false_eq_matched]
      simpa using hm
    | some l =>
      rw [addVisibleLeaves_filter, addVisibleLeaves_false_eq_matched]
      rcases hfl with hfl | hfl
      · cases hfl
      · simp only [Option.getD_some] at hfl
        simp [List.mem_filter, jsSetFrom_mem, hm, hfl]
  · intro lid h
    simp only [createIsLeafVisible, hactive, Bool.not_true, Bool.false_and,
      Bool.false_eq_true, if_false] at h
    cases filteredList with
    | none =>
      rw [addVisibleLeaves_false_eq_matched] at h
      simpa using h
    | some l =>
      rw [addVisibleLeaves_filter, addVisibleLeaves_false_eq_matched] at h
      have hmem := contains_true h
      exact (List.mem_filter.mp hmem).1

theorem claim_C6_filtered_list_semantics_witness :
    createIsLeafVisible exampleRaw "zz" (fun n _ => n.id == "A") false true (some [])
        "l1" = false ∧
    (isActiveSearch false false "zz" = false ∧
      createIsLeafVisible exampleRaw "zz" (fun n _ => n.id == "A") false false none
        "l1" = true) ∧
    (isActiveSearch false true "zz" = true ∧
      (createIsLeafVisible exampleRaw "zz" (fun n _ => n.id == "A") false true none
          "l1" = true ↔
        "l1" ∈ matchedLeafIds
          (fun n => (fun n _ => n.id == "A") n (parseSearchQueryString "zz"))
          exampleRaw)) :=
  ⟨(claim_C6_filtered_list_semantics exampleRaw "zz" (fun n _ => n.id == "A")
      false true).1 "l1",
   ⟨by decide,
    (claim_C6_filtered_list_semantics exampleRaw "zz" (fun n _ => n.id == "A")
      false false).2.1 (by decide) "l1"⟩,
   ⟨by decide,
    (claim_C6_filtered_list_semantics exampleRaw "zz" (fun n _ => n.id == "A")
      false true).2.2 (by decide) "l1"⟩⟩

theorem claim_C7_downward_propagation_witness :
    isActiveSearch false true "zz" = true ∧
    exampleBranchA ∈ RawTree.subnodes exampleRaw ∧
    createIsLeafVisible exampleRaw "zz" (fun n _ => n.id == "A") false true none
      "l1" = true :=
  ⟨by decide, by decide,
    (claim_C7_downward_propagation exampleRaw "zz" (fun n _ => n.id == "A") false true
      none (by decide)).1 exampleBranchA (by decide) (by decide) "l1" (by decide)
      (Or.inl rfl)⟩

theorem debRun_coalesces (ps : List DebProps) (q : DebProps) :
    ∀ s : DebState, (∀ r ∈ ps ++ [q], r.searchTerm.length > 0) →
      debRun s ((ps ++ [q]).map DebEvent.propsChange) =
        { committed := s.committed, pending := some q } := by
  induction ps with
  | nil =>
    intro s h
    have hq : q.searchTerm.length > 0 := h q (by simp)
    simp [debRun, debStep, hq]
  | cons r rest ih =>
    intro s h
    have hr : r.searchTerm.length > 0 := h r (by simp)
    simp only [List.cons_append, List.map_cons, debRun, List.foldl_cons]
    have hstep : debStep s (.propsChange r) =
        { committed := s.committed, pending := some r } := by
      simp [debStep, hr]
    rw [hstep]
    have := ih { committed := s.committed, pending := some r }
      (fun x hx => h x (List.mem_cons_of_mem r hx))
    simpa [debRun] using this

/-- C2 counterexample: with the search term non-empty ("x"), a change that
only edits the selection does not trigger an immediate recomputation: the
committed result still reflects the old props and the recomputation is merely
scheduled on the debounce timer. -/
theorem claim_C2_counterexample :
    debStep { committed := mkProps "x" [], pending := none }
        (.propsChange (mkProps "x" ["a"])) =
      { committed := mkProps "x" [], pending := some (mkProps "x" ["a"]) } ∧
    mkProps "x" [] ≠ mkProps "x" ["a"] := by
  constructor
  · decide
  · decide

/-- C2 amended: recomputation timing depends only on whether the current
search term is empty, not on which input changed: any dependency change with
an empty term recomputes immediately; any change while the term is non-empty
(search edits and selection, expansion, filter or tree changes alike) cancels
the pending recomputation and schedules a fresh quiet-period timer; a burst of
such changes leaves the committed result untouched with only the last change
pending, and the surviving timer commits exactly that change's props. -/
theorem claim_C2_amended_debounce (s : DebState) (p : DebProps) (ps : List DebProps)
    (q : DebProps) (hterm : ∀ r ∈ ps ++ [q], r.searchTerm.length > 0) :
    (p.searchTerm.length = 0 →
      debStep s (.propsChange p) = { committed := p, pending := none }) ∧
    (p.searchTerm.length > 0 →
      debStep s (.propsChange p) = { committed := s.committed, pending := some p }) ∧
    (debRun s ((ps ++ [q]).map DebEvent.propsChange) =
      { committed := s.committed, pending := some q }) ∧
    (∀ r : DebProps,
      debStep { committed := s.committed, pending := some r } .timerFire =
        { committed := r, pending := none }) := by
  refine ⟨?_, ?_, debRun_coalesces ps q s hterm, fun r => rfl⟩
  · intro h
    simp [debStep, h]
  · intro h
    simp [debStep, Nat.pos_iff_ne_zero.mp h]

mutual

theorem locality_off (p : GoParams) (sel2 : List String) (L : String)
    (hps : p.isSelectable = true)
    (hsel : ∀ x, sel2.contains x =
      if x = L then !(p.selectedSet.contains x) else p.selectedSet.contains x) :
    ∀ t : STree, reconSpecB p t = true → containsLeaf L t = false →
      (applyGo { p with selectedSet := sel2 } t).1 = t ∧
      (applyGo { p with selectedSet := sel2 } t).2.1 = false
  | .node i st cs => by
    intro hrs hoff
    cases hcs : cs.isEmpty with
    | true =>
      have hnil : cs = [] := by simpa using hcs
      subst hnil
      have hiL : i ≠ L := by
        simp only [containsLeaf, List.isEmpty_nil, if_true] at hoff
        simpa [beq_eq_decide] using hoff
      simp only [reconSpecB, List.isEmpty_nil, if_true, Bool.and_eq_true,
        beq_iff_eq] at hrs
      obtain ⟨h1, h2⟩ := hrs
      have hsame : leafIsSelected { p with selectedSet := sel2 } i = leafIsSelected p i := by
        simp only [leafIsSelected]
        rw [hsel i]
        simp [hiL]
      have hm : leafModify { p with selectedSet := sel2 } i st = false := by
        simp [leafModify, hsame, ← h1, ← h2]
      simp [applyGo, hm]
    | false =>
      have hrs2 := hrs
      simp only [reconSpecB, hcs, Bool.false_eq_true, if_false, Bool.and_eq_true,
        beq_iff_eq] at hrs2
      obtain ⟨⟨⟨⟨h1, h2⟩, h3⟩, h4⟩, hforestRS⟩ := hrs2
      have hoffF : containsLeafForest L cs = false := by
        simpa [containsLeaf, hcs] using hoff
      obtain ⟨hmap, hany⟩ := localityForest_off p sel2 L hps hsel cs
        (by simpa [reconSpecForestB] using hforestRS) hoffF
      have hexp : branchIsExpanded { p with selectedSet := sel2 } i cs =
          branchIsExpanded p i cs := rfl
      have hown : branchModifyOwn { p with selectedSet := sel2 } i st
          ((applyGoForest { p with selectedSet := sel2 } cs).map Prod.fst) = false := by
        rw [hmap]
        simp [branchModifyOwn, hexp, ← h1, ← h2, ← h3, ← h4]
      simp [applyGo, hcs, hany, hown]

theorem localityForest_off (p : GoParams) (sel2 : List String) (L : String)
    (hps : p.isSelectable = true)
    (hsel : ∀ x, sel2.contains x =
      if x = L then !(p.selectedSet.contains x) else p.selectedSet.contains x) :
    ∀ l : List STree, reconSpecForestB p l = true → containsLeafForest L l = false →
      (applyGoForest { p with selectedSet := sel2 } l).map Prod.fst = l ∧
      (applyGoForest { p with selectedSet := sel2 } l).any (fun r => r.2.1) = false
  | [] => by intro _ _; exact ⟨rfl, rfl⟩
  | c :: cs => by
    intro hrs hoff
    simp only [reconSpecForestB, Bool.and_eq_true] at hrs
    simp only [containsLeafForest, Bool.or_eq_false_iff] at hoff
    have hc := locality_off p sel2 L hps hsel c hrs.1 hoff.1
    have hrest := localityForest_off p sel2 L hps hsel cs hrs.2 hoff.2
    simp only [applyGoForest, List.map_cons, List.any_cons]
    refine ⟨by rw [hc.1, hrest.1], ?_⟩
    rw [hc.2, hrest.2]
    rfl

end

mutual

theorem locality_on (p : GoParams) (sel2 : List String) (L : String)
    (hps : p.isSelectable = true)
    (hsel : ∀ x, sel2.contains x =
      if x = L then !(p.selectedSet.contains x) else p.selectedSet.contains x) :
    ∀ t : STree, reconSpecB p t = true → containsLeaf L t = true →
      (applyGo { p with selectedSet := sel2 } t).2.1 = true
  | .node i st cs => by
    intro hrs hon
    cases hcs : cs.isEmpty with
    | true =>
      have hnil : cs = [] := by simpa using hcs
      subst hnil
      have hiL : i = L := by
        simp only [containsLeaf, List.isEmpty_nil, if_true] at hon
        simpa [beq_iff_eq] using hon
      simp only [reconSpecB, List.isEmpty_nil, if_true, Bool.and_eq_true,
        beq_iff_eq] at hrs
      obtain ⟨h1, h2⟩ := hrs
      have hdiff : leafIsSelected { p with selectedSet := sel2 } i ≠ st.isSelected := by
        rw [h1]
        simp only [leafIsSelected]
        rw [hsel i]
        simp only [hiL, if_true, hps]
        cases hb : p.selectedSet.contains L <;> simp [hb, hps]
      have hm : leafModify { p with selectedSet := sel2 } i st = true := by
        simp only [leafModify, Bool.or_eq_true, bne_iff_ne]
        exact Or.inl hdiff
      simp [applyGo, hm]
    | false =>
      have hrs2 := hrs
      simp only [reconSpecB, hcs, Bool.false_eq_true, if_false, Bool.and_eq_true,
        beq_iff_eq] at hrs2
      have honF : containsLeafForest L cs = true := by
        simpa [containsLeaf, hcs] using hon
      have hany := localityForest_on p sel2 L hps hsel cs
        (by simpa [reconSpecForestB] using hrs2.2) honF
      simp [applyGo, hcs, hany]

theorem localityForest_on (p : GoParams) (sel2 : List String) (L : String)
    (hps : p.isSelectable = true)
    (hsel : ∀ x, sel2.contains x =
      if x = L then !(p.selectedSet.contains x) else p.selectedSet.contains x) :
    ∀ l : List STree, reconSpecForestB p l = true → containsLeafForest L l = true →
      (applyGoForest { p with selectedSet := sel2 } l).any (fun r => r.2.1) = true
  | [] => by intro _ h; simp [containsLeafForest] at h
  | c :: cs => by
    intro hrs hon
    simp only [reconSpecForestB, Bool.and_eq_true] at hrs
    simp only [containsLeafForest, Bool.or_eq_true] at hon
    simp only [applyGoForest, List.any_cons, Bool.or_eq_true]
    rcases hon with hon | hon
    · exact Or.inl (locality_on p sel2 L hps hsel c hrs.1 hon)
    · exact Or.inr (localityForest_on p sel2 L hps hsel cs hrs.2 hon)

end

/-- C5: Locality of change: starting from a reconciled tree, reconciling after
toggling only leaf L's selection (multi-pick, selectable) replaces exactly the
nodes whose subtree contains a leaf with id L - L itself and its ancestors up
to the root: every such node's `modifyThisNode` flag is true and it becomes a
new object, while every subtree without leaf L keeps its prior object
(flag false, node returned unchanged). -/
theorem claim_C5_toggle_locality (isSearchable : Bool) (searchTerm : String)
    (sel : List String) (propsExpandedList : Option (List String))
    (isAdditionalFilterApplied : Bool) (isLeafVisible : String → Bool)
    (t : STree) (L : String)
    (h : reconSpecB (makeGoParams true isSearchable true searchTerm sel
      propsExpandedList none isAdditionalFilterApplied isLeafVisible) t = true) :
    (applyPropsToStatefulTree t true isSearchable true searchTerm (addOrRemove sel L)
        propsExpandedList isAdditionalFilterApplied isLeafVisible none).statefulTree =
      (applyGo (makeGoParams true isSearchable true searchTerm (addOrRemove sel L)
        propsExpandedList none isAdditionalFilterApplied isLeafVisible) t).1 ∧
    ∀ s ∈ STree.subnodes t,
      (containsLeaf L s = false →
        (applyGo (makeGoParams true isSearchable true searchTerm (addOrRemove sel L)
          propsExpandedList none isAdditionalFilterApplied isLeafVisible) s).1 = s ∧
        (applyGo (makeGoParams true isSearchable true searchTerm (addOrRemove sel L)
          propsExpandedList none isAdditionalFilterApplied isLeafVisible) s).2.1 = false) ∧
      (containsLeaf L s = true →
        (applyGo (makeGoParams true isSearchable true searchTerm (addOrRemove sel L)
          propsExpandedList none isAdditionalFilterApplied isLeafVisible) s).2.1 = true ∧
        (applyGo (makeGoParams true isSearchable true searchTerm (addOrRemove sel L)
          propsExpandedList none isAdditionalFilterApplied isLeafVisible) s).1 ≠ s) := by
  have hselh : ∀ x, (jsSetFrom (addOrRemove sel L)).contains x =
      if x = L then
        !((makeGoParams true isSearchable true searchTerm sel propsExpandedList none
          isAdditionalFilterApplied isLeafVisible).selectedSet.contains x)
      else (makeGoParams true isSearchable true searchTerm sel propsExpandedList none
        isAdditionalFilterApplied isLeafVisible).selectedSet.contains x := by
    intro x
    have hP1 : (makeGoParams true isSearchable true searchTerm sel propsExpandedList none
        isAdditionalFilterApplied isLeafVisible).selectedSet = jsSetFrom sel := rfl
    rw [hP1]
    simp only [jsSetFrom_contains, addOrRemove_contains]
    by_cases hx : x = L
    · subst hx
      simp
    · simp [hx]
  have hpp : makeGoParams true isSearchable true searchTerm (addOrRemove sel L)
      propsExpandedList none isAdditionalFilterApplied isLeafVisible =
      { makeGoParams true isSearchable true searchTerm sel propsExpandedList none
          isAdditionalFilterApplied isLeafVisible with
        selectedSet := jsSetFrom (addOrRemove sel L) } := rfl
  refine ⟨rfl, ?_⟩
  intro s hs
  have hsp := reconSpec_subnodes _ t h s hs
  constructor
  · intro hoff
    have hres := locality_off
      (makeGoParams true isSearchable true searchTerm sel propsExpandedList none
        isAdditionalFilterApplied isLeafVisible)
      (jsSetFrom (addOrRemove sel L)) L rfl hselh s hsp hoff
    rwa [← hpp] at hres
  · intro hon
    have hflag := locality_on
      (makeGoParams true isSearchable true searchTerm sel propsExpandedList none
        isAdditionalFilterApplied isLeafVisible)
      (jsSetFrom (addOrRemove sel L)) L rfl hselh s hsp hon
    rw [← hpp] at hflag
    exact ⟨hflag, applyGo_modified_neq _ s hflag⟩

theorem claim_C5_toggle_locality_witness :
    reconSpecB (makeGoParams true false true "" ["l1"] none none false (fun _ => true))
      exampleAutoOut = true ∧
    exampleAutoOut ∈ STree.subnodes exampleAutoOut ∧
    containsLeaf "l2" exampleAutoOut = true ∧
    (applyGo (makeGoParams true false true "" (addOrRemove ["l1"] "l2") none none false
      (fun _ => true)) exampleAutoOut).2.1 = true :=
  ⟨by decide, by decide, by decide,
    (((claim_C5_toggle_locality false "" ["l1"] none false (fun _ => true)
      exampleAutoOut "l2" (by decide)).2 exampleAutoOut (by decide)).2 (by decide)).1⟩

theorem claim_C2_amended_debounce_witness :
    (∀ r ∈ [mkProps "a" [], mkProps "ab" [], mkProps "abc" [], mkProps "abcd" []] ++
        [mkProps "abcde" []], r.searchTerm.length > 0) ∧
    debRun { committed := mkProps "" [], pending := none }
        (([mkProps "a" [], mkProps "ab" [], mkProps "abc" [], mkProps "abcd" []] ++
          [mkProps "abcde" []]).map DebEvent.propsChange) =
      { committed := mkProps "" [], pending := some (mkProps "abcde" []) } :=
  ⟨by decide,
    (claim_C2_amended_debounce { committed := mkProps "" [], pending := none }
      (mkProps "" []) [mkProps "a" [], mkProps "ab" [], mkProps "abc" [], mkProps "abcd" []]
      (mkProps "abcde" []) (by decide)).2.2.1⟩

mutual

theorem leafIndet_applyGo (p : GoParams) :
    ∀ t : STree, leafIndetOkB t = true → leafIndetOkB ((applyGo p t).1) = true
  | .node i st cs => by
    intro h
    cases hcs : cs.isEmpty with
    | true =>
      have hnil : cs = [] := by simpa using hcs
      subst hnil
      cases hm : leafModify p i st with
      | true =>
        simp only [leafIndetOkB, List.isEmpty_nil, if_true] at h
        simp [applyGo, hm, leafIndetOkB, leafNewState, h]
      | false =>
        simp only [leafIndetOkB, List.isEmpty_nil, if_true] at h
        simp [applyGo, hm, leafIndetOkB, h]
    | false =>
      have hF : leafIndetOkForestB cs = true := by
        simpa [leafIndetOkB, hcs] using h
      have hmapped := leafIndet_applyGoForest p cs hF
      cases hmod : (((applyGoForest p cs).any fun r => r.2.1) ||
          branchModifyOwn p i st ((applyGoForest p cs).map Prod.fst)) with
      | true =>
        simp only [applyGo, hcs, Bool.false_eq_true, if_false, hmod, if_true]
        simpa [leafIndetOkB, applyGoForest_isEmpty, hcs] using hmapped
      | false =>
        obtain ⟨hany, _⟩ := Bool.or_eq_false_iff.mp hmod
        have hmap : (applyGoForest p cs).map Prod.fst = cs :=
          applyGoForest_all_unmodified p cs hany
        simp only [applyGo, hcs, Bool.false_eq_true, if_false, hmod, if_false]
        simpa [leafIndetOkB, hcs] using hF

theorem leafIndet_applyGoForest (p : GoParams) :
    ∀ l : List STree, leafIndetOkForestB l = true →
      leafIndetOkForestB ((applyGoForest p l).map Prod.fst) = true
  | [] => by intro _; rfl
  | c :: cs => by
    intro h
    simp only [leafIndetOkForestB, Bool.and_eq_true] at h
    simp only [applyGoForest, List.map_cons, leafIndetOkForestB, Bool.and_eq_true]
    exact ⟨leafIndet_applyGo p c h.1, leafIndet_applyGoForest p cs h.2⟩

end

mutual

theorem leafIndet_subnodes :
    ∀ u : STree, leafIndetOkB u = true → ∀ s ∈ STree.subnodes u, leafIndetOkB s = true
  | .node i st cs => by
    intro h s hs
    cases hcs : cs.isEmpty with
    | true =>
      have hnil : cs = [] := by simpa using hcs
      subst hnil
      have hseq : s = STree.node i st [] := by
        simpa [STree.subnodes, STree.subnodesForest] using hs
      rw [hseq]
      exact h
    | false =>
      simp only [STree.subnodes] at hs
      rcases hs with _ | hs
      · exact h
      · have hF : leafIndetOkForestB cs = true := by
          simpa [leafIndetOkB, hcs] using h
        exact leafIndetForest_subnodes cs hF s (by assumption)

theorem leafIndetForest_subnodes :
    ∀ l : List STree, leafIndetOkForestB l = true →
      ∀ s ∈ STree.subnodesForest l, leafIndetOkB s = true
  | [] => by intro _ s hs; cases hs
  | c :: cs => by
    intro h s hs
    simp only [leafIndetOkForestB, Bool.and_eq_true] at h
    simp only [STree.subnodesForest, List.mem_append] at hs
    rcases hs with hs | hs
    · exact leafIndet_subnodes c h.1 s hs
    · exact leafIndetForest_subnodes cs h.2 s hs

end

mutual

theorem descLeaves_ne_nil : ∀ t : STree, STree.descLeaves t ≠ []
  | .node i st cs => by
    cases hcs : cs.isEmpty with
    | true => simp [STree.descLeaves, hcs]
    | false =>
      have hne : cs ≠ [] := by
        intro hx
        subst hx
        simp at hcs
      simp only [STree.descLeaves, hcs, Bool.false_eq_true, if_false]
      exact descLeavesForest_ne_nil cs hne

theorem descLeavesForest_ne_nil : ∀ l : List STree, l ≠ [] → STree.descLeavesForest l ≠ []
  | [] => by intro h; cases h rfl
  | c :: cs => by
    intro _
    simp only [STree.descLeavesForest]
    intro hx
    exact descLeaves_ne_nil c (List.append_eq_nil.mp hx).1

end

theorem sel_imp_not_indet {p : GoParams} {c : STree}
    (hrs : reconSpecB p c = true) (hli : leafIndetOkB c = true)
    (hsel : c.state.isSelected = true) :
    c.state.isIndeterminate.getD false = false := by
  cases c with
  | node i st cs =>
    cases hcs : cs.isEmpty with
    | true =>
      simpa [leafIndetOkB, hcs, STree.state] using hli
    | false =>
      simp only [reconSpecB, hcs, Bool.false_eq_true, if_false, Bool.and_eq_true,
        beq_iff_eq] at hrs
      have hI := hrs.1.1.1.2
      have hS := hrs.1.1.1.1
      simp only [STree.state] at hI hS hsel ⊢
      rw [hI]
      simp only [Option.getD_some]
      rw [branchIsIndeterminate, ← hS, hsel]
      rfl

theorem anySelectedChild_iff (cs : List STree) :
    anySelectedChild cs = true ↔ ∃ c ∈ cs, c.state.isSelected = true := by
  simp [anySelectedChild, List.any_eq_true]

theorem anyIndeterminateChild_iff (cs : List STree) :
    anyIndeterminateChild cs = true ↔
      ∃ c ∈ cs, c.state.isIndeterminate.getD false = true := by
  simp [anyIndeterminateChild, List.any_eq_true]

theorem anyIndeterminateChild_false_iff (cs : List STree) :
    anyIndeterminateChild cs = false ↔
      ∀ c ∈ cs, c.state.isIndeterminate.getD false = false := by
  rw [← Bool.not_eq_true, anyIndeterminateChild_iff]
  simp

theorem anyUnselectedChild_false_iff (cs : List STree) :
    anyUnselectedChild cs = false ↔ ∀ c ∈ cs, c.state.isSelected = true := by
  rw [← Bool.not_eq_true]
  simp [anyUnselectedChild, List.any_eq_true]

theorem branchIsSelected_iff (cs : List STree) :
    branchIsSelected cs = true ↔
      ∀ c ∈ cs, c.state.isSelected = true ∧
        c.state.isIndeterminate.getD false = false := by
  simp only [branchIsSelected, Bool.and_eq_true, Bool.not_eq_true']
  rw [anyIndeterminateChild_false_iff, anyUnselectedChild_false_iff]
  constructor
  · intro h c hc
    exact ⟨h.2 c hc, h.1 c hc⟩
  · intro h
    exact ⟨fun c hc => (h c hc).2, fun c hc => (h c hc).1⟩

mutual

theorem triState_node (p : GoParams) :
    ∀ u : STree, reconSpecB p u = true → leafIndetOkB u = true →
      ((u.state.isSelected = true ∧ u.state.isIndeterminate.getD false = false) ↔
        ((∀ d ∈ STree.descLeaves u, d.state.isSelected = true) ∧
         (∀ d ∈ STree.subnodes u, d.state.isIndeterminate.getD false = false))) ∧
      ((∃ d ∈ STree.descLeaves u, d.state.isSelected = true) →
        (u.state.isSelected = true ∨ u.state.isIndeterminate.getD false = true))
  | .node i st cs => by
    intro hrs hli
    cases hcs : cs.isEmpty with
    | true =>
      have hnil : cs = [] := by simpa using hcs
      subst hnil
      have hI : st.isIndeterminate.getD false = false := by
        simpa [leafIndetOkB] using hli
      constructor
      · simp [STree.descLeaves, STree.subnodes, STree.subnodesForest, STree.state, hI]
      · intro hex
        left
        simpa [STree.descLeaves, STree.state] using hex
    | false =>
      simp only [reconSpecB, hcs, Bool.false_eq_true, if_false, Bool.and_eq_true,
        beq_iff_eq] at hrs
      obtain ⟨⟨⟨⟨hS, hI⟩, hV⟩, hE⟩, hrsF⟩ := hrs
      have hliF : leafIndetOkForestB cs = true := by
        simpa [leafIndetOkB, hcs] using hli
      obtain ⟨F1, F2⟩ := triState_forest p cs hrsF hliF
      have hgetD : st.isIndeterminate.getD false = branchIsIndeterminate cs := by
        rw [hI]
        rfl
      have hdesc : STree.descLeaves (STree.node i st cs) = STree.descLeavesForest cs := by
        simp [STree.descLeaves, hcs]
      have hsub : STree.subnodes (STree.node i st cs) =
          STree.node i st cs :: STree.subnodesForest cs := by
        simp [STree.subnodes]
      constructor
      · rw [hdesc, hsub]
        constructor
        · intro ⟨h1, h2⟩
          have hbs : branchIsSelected cs = true := by rw [← hS]; exact h1
          have hall := (branchIsSelected_iff cs).mp hbs
          have hAB := F1.mp hall
          refine ⟨hAB.1, ?_⟩
          intro d hd
          rcases hd with _ | hd
          · simpa [STree.state] using h2
          · exact hAB.2 d (by assumption)
        · intro ⟨hA, hB⟩
          have hBrest : ∀ d ∈ STree.subnodesForest cs,
              d.state.isIndeterminate.getD false = false := by
            intro d hd
            exact hB d (List.mem_cons_of_mem _ hd)
          have hall := F1.mpr ⟨hA, hBrest⟩
          have hbs : branchIsSelected cs = true := (branchIsSelected_iff cs).mpr hall
          constructor
          · simp only [STree.state]
            rw [hS]
            exact hbs
          · simp only [STree.state]
            rw [hgetD, branchIsIndeterminate, hbs]
            rfl
      · rw [hdesc]
        intro hex
        obtain ⟨c, hc, hcsel⟩ := F2 hex
        by_cases hbsel : st.isSelected = true
        · left
          simpa [STree.state] using hbsel
        · right
          simp only [STree.state]
          rw [hgetD, branchIsIndeterminate]
          have hbs : branchIsSelected cs = false := by
            rw [← hS]
            simpa using hbsel
          rw [hbs]
          simp only [Bool.not_false, Bool.true_and]
          rcases hcsel with hcsel | hcsel
          · have : anySelectedChild cs = true := (anySelectedChild_iff cs).mpr ⟨c, hc, hcsel⟩
            rw [this]
            simp
          · have : anyIndeterminateChild cs = true :=
              (anyIndeterminateChild_iff cs).mpr ⟨c, hc, hcsel⟩
            rw [this]
            simp

theorem triState_forest (p : GoParams) :
    ∀ l : List STree, reconSpecForestB p l = true → leafIndetOkForestB l = true →
      ((∀ c ∈ l, c.state.isSelected = true ∧
          c.state.isIndeterminate.getD false = false) ↔
        ((∀ d ∈ STree.descLeavesForest l, d.state.isSelected = true) ∧
         (∀ d ∈ STree.subnodesForest l, d.state.isIndeterminate.getD false = false))) ∧
      ((∃ d ∈ STree.descLeavesForest l, d.state.isSelected = true) →
        ∃ c ∈ l, (c.state.isSelected = true ∨ c.state.isIndeterminate.getD false = true))
  | [] => by
    intro _ _
    constructor
    · simp [STree.descLeavesForest, STree.subnodesForest]
    · intro hex
      simp [STree.descLeavesForest] at hex
  | c :: cs => by
    intro hrs hli
    simp only [reconSpecForestB, Bool.and_eq_true] at hrs
    simp only [leafIndetOkForestB, Bool.and_eq_true] at hli
    obtain ⟨H1, H2⟩ := triState_node p c hrs.1 hli.1
    obtain ⟨F1, F2⟩ := triState_forest p cs hrs.2 hli.2
    constructor
    · simp only [STree.descLeavesForest, STree.subnodesForest, List.forall_mem_cons,
        List.forall_mem_append]
      constructor
      · intro ⟨h1, h2⟩
        obtain ⟨a1, b1⟩ := H1.mp h1
        obtain ⟨a2, b2⟩ := F1.mp h2
        exact ⟨⟨a1, a2⟩, b1, b2⟩
      · intro ⟨⟨a1, a2⟩, b1, b2⟩
        exact ⟨H1.mpr ⟨a1, b1⟩, F1.mpr ⟨a2, b2⟩⟩
    · simp only [STree.descLeavesForest, List.mem_append]
      intro hex
      obtain ⟨d, hd, hdsel⟩ := hex
      rcases hd with hd | hd
      · exact ⟨c, List.mem_cons_self _ _, H2 ⟨d, hd, hdsel⟩⟩
      · obtain ⟨e, he, hesel⟩ := F2 ⟨d, hd, hdsel⟩
        exact ⟨e, List.mem_cons_of_mem _ he, hesel⟩

end

theorem reconSpecForest_mem (p : GoParams) : ∀ l : List STree,
    reconSpecForestB p l = true → ∀ c ∈ l, reconSpecB p c = true := by
  intro l
  induction l with
  | nil => intro _ c hc; cases hc
  | cons d ds ih =>
    intro h c hc
    simp only [reconSpecForestB, Bool.and_eq_true] at h
    rcases hc with _ | hc
    · exact h.1
    · exact ih h.2 c (by assumption)

theorem leafIndetForest_mem : ∀ l : List STree,
    leafIndetOkForestB l = true → ∀ c ∈ l, leafIndetOkB c = true := by
  intro l
  induction l with
  | nil => intro _ c hc; cases hc
  | cons d ds ih =>
    intro h c hc
    simp only [leafIndetOkForestB, Bool.and_eq_true] at h
    rcases hc with _ | hc
    · exact h.1
    · exact ih h.2 c (by assumption)

theorem descLeavesForest_mono : ∀ (l : List STree), ∀ c ∈ l,
    ∀ d ∈ STree.descLeaves c, d ∈ STree.descLeavesForest l := by
  intro l
  induction l with
  | nil => intro c hc; cases hc
  | cons e es ih =>
    intro c hc d hd
    simp only [STree.descLeavesForest, List.mem_append]
    rcases hc with _ | hc
    · exact Or.inl hd
    · exact Or.inr (ih c (by assumption) d hd)

theorem triState_branch (p : GoParams) (s : STree)
    (hrs : reconSpecB p s = true) (hli : leafIndetOkB s = true)
    (hb : s.children.isEmpty = false) :
    (s.state.isSelected = true ↔
      (∀ d ∈ STree.descLeaves s, d.state.isSelected = true) ∧
      (∀ d ∈ STree.subnodesForest s.children,
        d.state.isIndeterminate.getD false = false)) ∧
    (s.state.isIndeterminate.getD false = true ↔
      ¬((∀ d ∈ STree.descLeaves s, d.state.isSelected = true) ∧
        (∀ d ∈ STree.subnodesForest s.children,
          d.state.isIndeterminate.getD false = false)) ∧
      ((∃ d ∈ STree.descLeaves s, d.state.isSelected = true) ∨
       (∃ c ∈ s.children, c.state.isIndeterminate.getD false = true))) := by
  cases s with
  | node i st cs =>
    simp only [STree.children] at hb
    have hrs2 := hrs
    simp only [reconSpecB, hb, Bool.false_eq_true, if_false, Bool.and_eq_true,
      beq_iff_eq] at hrs2
    obtain ⟨⟨⟨⟨hS, hI⟩, hV⟩, hE⟩, hrsF⟩ := hrs2
    have hliF : leafIndetOkForestB cs = true := by
      simpa [leafIndetOkB, hb] using hli
    obtain ⟨F1, F2⟩ := triState_forest p cs hrsF hliF
    have hgetD : st.isIndeterminate.getD false = branchIsIndeterminate cs := by
      rw [hI]
      rfl
    have hdesc : STree.descLeaves (STree.node i st cs) = STree.descLeavesForest cs := by
      simp [STree.descLeaves, hb]
    have hsel_iff : st.isSelected = true ↔
        ((∀ d ∈ STree.descLeavesForest cs, d.state.isSelected = true) ∧
         (∀ d ∈ STree.subnodesForest cs,
           d.state.isIndeterminate.getD false = false)) := by
      rw [hS, branchIsSelected_iff, F1]
    constructor
    · simp only [STree.state, STree.children]
      rw [hdesc]
      exact hsel_iff
    · simp only [STree.state, STree.children]
      rw [hdesc, hgetD]
      constructor
      · intro h
        have hparts : branchIsSelected cs = false ∧
            (anyIndeterminateChild cs = true ∨ anySelectedChild cs = true) := by
          simpa [branchIsIndeterminate, Bool.and_eq_true, Bool.not_eq_true',
            Bool.or_eq_true] using h
        obtain ⟨hbs, hdisj⟩ := hparts
        constructor
        · intro hab
          have hst : st.isSelected = true := hsel_iff.mpr hab
          rw [hS, hbs] at hst
          cases hst
        · rcases hdisj with hind | hsel2
          · obtain ⟨c, hc, hIc⟩ := (anyIndeterminateChild_iff cs).mp hind
            exact Or.inr ⟨c, hc, hIc⟩
          · obtain ⟨c, hc, hSc⟩ := (anySelectedChild_iff cs).mp hsel2
            have hrc := reconSpecForest_mem p cs hrsF c hc
            have hlc := leafIndetForest_mem cs hliF c hc
            have hIc : c.state.isIndeterminate.getD false = false :=
              sel_imp_not_indet hrc hlc hSc
            have hAB := ((triState_node p c hrc hlc).1).mp ⟨hSc, hIc⟩
            obtain ⟨d, hd⟩ := List.exists_mem_of_ne_nil _ (descLeaves_ne_nil c)
            exact Or.inl ⟨d, descLeavesForest_mono cs c hc d hd, hAB.1 d hd⟩
      · intro ⟨hnab, hdisj⟩
        have hbs : branchIsSelected cs = false := by
          cases hbsv : branchIsSelected cs with
          | false => rfl
          | true =>
            exfalso
            apply hnab
            exact hsel_iff.mp (by rw [hS, hbsv])
        have hor : anyIndeterminateChild cs = true ∨ anySelectedChild cs = true := by
          rcases hdisj with ⟨d, hd, hdsel⟩ | ⟨c, hc, hIc⟩
          · obtain ⟨c, hc, hcd⟩ := F2 ⟨d, hd, hdsel⟩
            rcases hcd with hcd | hcd
            · exact Or.inr ((anySelectedChild_iff cs).mpr ⟨c, hc, hcd⟩)
            · exact Or.inl ((anyIndeterminateChild_iff cs).mpr ⟨c, hc, hcd⟩)
          · exact Or.inl ((anyIndeterminateChild_iff cs).mpr ⟨c, hc, hIc⟩)
        simp only [branchIsIndeterminate, hbs, Bool.not_false, Bool.true_and,
          Bool.or_eq_true]
        exact hor

/-- C3: After every reconciliation of a tree whose leaves carry no stale
indeterminate flag, every branch of the output satisfies the tri-state
invariants: `isSelected` iff every descendant leaf is selected and no
descendant is indeterminate, and `isIndeterminate` iff not fully selected and
some descendant leaf is selected or some child is indeterminate; in
particular the two-leaf branch yields (true, false) for two selected leaves,
(false, true) for a mixed pair, and (false, false) for none selected. -/
theorem claim_C3_tristate_invariants (root : STree)
    (isSelectable isSearchable isMultiPick : Bool) (searchTerm : String)
    (selectedList : List String) (propsExpandedList : Option (List String))
    (isAdditionalFilterApplied : Bool) (isLeafVisible : String → Bool)
    (stateExpandedList : Option (List String))
    (hroot : leafIndetOkB root = true) :
    (∀ s ∈ STree.subnodes (applyPropsToStatefulTree root isSelectable isSearchable
        isMultiPick searchTerm selectedList propsExpandedList isAdditionalFilterApplied
        isLeafVisible stateExpandedList).statefulTree,
      s.children.isEmpty = false →
        (s.state.isSelected = true ↔
          (∀ d ∈ STree.descLeaves s, d.state.isSelected = true) ∧
          (∀ d ∈ STree.subnodesForest s.children,
            d.state.isIndeterminate.getD false = false)) ∧
        (s.state.isIndeterminate.getD false = true ↔
          ¬((∀ d ∈ STree.descLeaves s, d.state.isSelected = true) ∧
            (∀ d ∈ STree.subnodesForest s.children,
              d.state.isIndeterminate.getD false = false)) ∧
          ((∃ d ∈ STree.descLeaves s, d.state.isSelected = true) ∨
           (∃ c ∈ s.children, c.state.isIndeterminate.getD false = true)))) ∧
    ((twoLeafOut ["x", "y"]).state.isSelected = true ∧
      (twoLeafOut ["x", "y"]).state.isIndeterminate = some false) ∧
    ((twoLeafOut ["x"]).state.isSelected = false ∧
      (twoLeafOut ["x"]).state.isIndeterminate = some true) ∧
    ((twoLeafOut []).state.isSelected = false ∧
      (twoLeafOut []).state.isIndeterminate = some false) := by
  refine ⟨?_, by decide, by decide, by decide⟩
  intro s hs hb
  have hmem : s ∈ STree.subnodes ((applyGo (makeGoParams isSelectable isSearchable
      isMultiPick searchTerm selectedList propsExpandedList stateExpandedList
      isAdditionalFilterApplied isLeafVisible) root).1) := by
    simpa [applyPropsToStatefulTree] using hs
  exact triState_branch _ s
    (reconSpec_subnodes _ _ (reconSpec_applyGo _ root) s hmem)
    (leafIndet_subnodes _ (leafIndet_applyGo _ root hroot) s hmem) hb

theorem claim_C3_tristate_invariants_witness :
    leafIndetOkB (createStatefulTree exampleRaw) = true ∧
    exampleAutoOut ∈ STree.subnodes exampleAutoOut ∧
    exampleAutoOut.children.isEmpty = false ∧
    ((exampleAutoOut.state.isSelected = true ↔
      (∀ d ∈ STree.descLeaves exampleAutoOut, d.state.isSelected = true) ∧
      (∀ d ∈ STree.subnodesForest exampleAutoOut.children,
        d.state.isIndeterminate.getD false = false)) ∧
     (exampleAutoOut.state.isIndeterminate.getD false = true ↔
      ¬((∀ d ∈ STree.descLeaves exampleAutoOut, d.state.isSelected = true) ∧
        (∀ d ∈ STree.subnodesForest exampleAutoOut.children,
          d.state.isIndeterminate.getD false = false)) ∧
      ((∃ d ∈ STree.descLeaves exampleAutoOut, d.state.isSelected = true) ∨
       (∃ c ∈ exampleAutoOut.children,
         c.state.isIndeterminate.getD false = true)))) :=
  ⟨by decide, by decide, by decide,
    (claim_C3_tristate_invariants (createStatefulTree exampleRaw) true false true ""
      ["l1"] none false (fun _ => true) none (by decide)).1 exampleAutoOut
      (by decide) (by decide)⟩

theorem claim_C4_reconciliation_idempotent_witness :
    applyPropsToStatefulTree
        (applyPropsToStatefulTree (createStatefulTree exampleRaw) true false true ""
          ["l1"] none false (fun _ => true) none).statefulTree
        true false true "" ["l1"] none false (fun _ => true) none =
      applyPropsToStatefulTree (createStatefulTree exampleRaw) true false true ""
        ["l1"] none false (fun _ => true) none ∧
    (applyGo (makeGoParams true false true "" ["l1"] none none false (fun _ => true))
      (applyPropsToStatefulTree (createStatefulTree exampleRaw) true false true ""
        ["l1"] none false (fun _ => true) none).statefulTree).2.1 = false :=
  claim_C4_reconciliation_idempotent (createStatefulTree exampleRaw) true false true ""
    ["l1"] none false (fun _ => true) none

theorem claim_C9_single_pick_truncation_witness :
    applyPropsToStatefulTree (createStatefulTree exampleRaw) true false false ""
        ("l1" :: "l2" :: []) none false (fun _ => true) none =
      applyPropsToStatefulTree (createStatefulTree exampleRaw) true false false ""
        ["l1"] none false (fun _ => true) none ∧
    singlePickDiagnosticEmitted false ("l1" :: "l2" :: []) = true :=
  claim_C9_single_pick_truncation (createStatefulTree exampleRaw) true false ""
    "l1" "l2" [] none false (fun _ => true) none

theorem claim_C10_explicit_expansion_dedup_witness :
    (applyPropsToStatefulTree (createStatefulTree exampleRaw) true false true "" []
        (some ["A", "A"]) false (fun _ => true) none).expandedList =
      dedupFirst ["A", "A"] ∧
    (∀ x, x ∈ (applyPropsToStatefulTree (createStatefulTree exampleRaw) true false true
        "" [] (some ["A", "A"]) false (fun _ => true) none).expandedList ↔
      x ∈ ["A", "A"]) ∧
    (applyPropsToStatefulTree (createStatefulTree (.node "r" [])) true false true ""
      [] (some ["a", "a"]) false (fun _ => true) none).expandedList ≠ ["a", "a"] :=
  claim_C10_explicit_expansion_dedup (createStatefulTree exampleRaw) true false true ""
    [] ["A", "A"] false (fun _ => true) none
